import Mathlib

set_option maxHeartbeats 1000000

/-!
Verification of the semantic-indexer summarization engine.

The development shallowly embeds the python sources
`summarizer.py`, `batch_summarize.py` and `query_repo.py` of the
`.github/skills/semantic-indexer/scripts` directory.  The persistent
store is the sqlite database with the schema
`functions(function_id, name, file, start_line, end_line, summary)`,
`call_edges(caller_id, callee_id)`,
`preconditions(function_id, condition_text, sequence_order)` and
`postconditions(function_id, condition_text, sequence_order)`; it is
modelled as lists of rows in table-scan order.  The small helpers of the
`SemanticIndex` class (module `indexer.py`, which is not part of the
sources) are modelled from the spec where noted.
-/

namespace SemIdx

/-- Whitespace test used to model the python `str.strip()` calls of the sources. -/
def isSpace (c : Char) : Bool :=
  c = ' ' || c = '\t' || c = '\n' || c = '\r' || c = '\x0b' || c = '\x0c'

/-- Models python `str.strip()`: drop whitespace from both ends of a string. -/
def pyStrip (s : String) : String :=
  String.mk (((s.data.dropWhile isSpace).reverse.dropWhile isSpace).reverse)

/-- One row of the `functions` table. -/
structure FunctionRow where
  function_id : Nat
  name : String
  file : String
  start_line : Nat
  end_line : Nat
  summary : String
deriving Repr, DecidableEq

/-- One row of the `preconditions` or `postconditions` table. -/
structure CondRow where
  function_id : Nat
  condition_text : String
  sequence_order : Nat
deriving Repr, DecidableEq

/-- The graph store: the sqlite database the scripts operate on, with rows kept
in table-scan (insertion) order. -/
structure Store where
  functions : List FunctionRow
  call_edges : List (Nat × Nat)
  preconditions : List CondRow
  postconditions : List CondRow
deriving Repr, DecidableEq

/-- Modelled from the spec: `SemanticIndex.get_function_info` (indexer.py is not
under src).  Looks a function up by id, i.e. `SELECT * FROM functions WHERE
function_id = ?` returning the first matching row. -/
def getFunctionRow (s : Store) (fid : Nat) : Option FunctionRow :=
  s.functions.find? (fun f => f.function_id == fid)

/-- Modelled from the spec: `SemanticIndex.get_callees` (indexer.py is not under
src).  Per spec section 3 an edge whose callee name matched no known function is
retained with an unknown sink id; the rows handed back to callers carry the
name, file and summary of the callee, i.e. they are the known-function join of
the outgoing edges, in edge order.  Unknown callee ids contribute no row. -/
def getCalleeRows (s : Store) (fid : Nat) : List FunctionRow :=
  (s.call_edges.filter (fun e => e.1 == fid)).filterMap (fun e => getFunctionRow s e.2)

/-- Modelled from the spec: `SemanticIndex.update_summary` (indexer.py is not
under src), i.e. `UPDATE functions SET summary = ? WHERE function_id = ?`. -/
def indexUpdateSummary (s : Store) (fid : Nat) (summary : String) : Store :=
  { s with functions := s.functions.map (fun f =>
      if f.function_id == fid then { f with summary := summary } else f) }

/-- Is some functions row carrying this id, i.e. is the id a known function. -/
def isKnown (s : Store) (fid : Nat) : Bool :=
  s.functions.any (fun f => f.function_id == fid)

/-- Is some functions row with this id annotated (non-empty summary). -/
def annotatedB (s : Store) (fid : Nat) : Bool :=
  s.functions.any (fun f => f.function_id == fid && f.summary != "")

/-- Number of unannotated functions, i.e.
`SELECT COUNT(*) FROM functions WHERE summary = ''`. -/
def unannotatedCount (s : Store) : Nat :=
  (s.functions.filter (fun f => f.summary == "")).length

/-- The ids of the functions table are pairwise distinct (primary key). -/
def idsNodup (s : Store) : Prop :=
  (s.functions.map (fun f => f.function_id)).Nodup

instance (s : Store) : Decidable (idsNodup s) := by
  unfold idsNodup
  infer_instance

/-- The `EXISTS` subquery of `get_next_batch` (summarizer.py lines 269 to 274):
some outgoing edge reaches a known callee whose summary is empty. -/
def hasUnannotatedCallee (s : Store) (fid : Nat) : Bool :=
  s.call_edges.any (fun e =>
    e.1 == fid && s.functions.any (fun c => c.function_id == e.2 && c.summary == ""))

/-- Readiness predicate of batch mode (summarizer.py `get_next_batch`): the row
is unannotated and no known callee of it is unannotated. -/
def readyRow (s : Store) (f : FunctionRow) : Bool :=
  f.summary == "" && !(hasUnannotatedCallee s f.function_id)

/-- Result of `get_next_batch` (summarizer.py lines 259 to 310). -/
inductive BatchResult where
  | complete : BatchResult
  | blocked : Nat → BatchResult
  | okBatch : List FunctionRow → Nat → BatchResult
deriving Repr, DecidableEq

/-- summarizer.py `get_next_batch`: the ready rows in table order, limited to
`maxBatch`; `complete` when nothing is unannotated, `blocked` otherwise when the
limited list is empty. -/
def getNextBatch (s : Store) (maxBatch : Nat) : BatchResult :=
  let batch := (s.functions.filter (fun f => readyRow s f)).take maxBatch
  if batch.isEmpty then
    if unannotatedCount s = 0 then .complete else .blocked (unannotatedCount s)
  else
    .okBatch batch (unannotatedCount s)

/-- The early-exit loop over the callees inside `find_next_summary_target`
(summarizer.py lines 49 to 66): call `f` on each callee in turn, threading the
visited list; return the first target found at once, otherwise report whether
every callee subtree was done.  `f` is instantiated with the recursive call. -/
def walkW (f : Nat → List Nat → Option FunctionRow × Bool × List Nat) :
    List Nat → List Nat → Option FunctionRow × Bool × List Nat
  | [], visited => (none, true, visited)
  | c :: rest, visited =>
    match f c visited with
    | (some t, _, v) => (some t, false, v)
    | (none, d, v) =>
      match walkW f rest v with
      | (t2, d2, v2) => (t2, d && d2, v2)

/-- summarizer.py `find_next_summary_target` (lines 19 to 73): post-order
traversal looking for the first unsummarized node whose callees are all
summarized.  The python recursion carries no fuel; the `fuel` argument only
bounds the recursion depth and is instantiated large enough by the caller. -/
def findNext (s : Store) : Nat → Nat → List Nat → Option FunctionRow × Bool × List Nat
  | 0, _, visited => (none, false, visited)
  | fuel + 1, entry, visited =>
    if entry ∈ visited then
      match getFunctionRow s entry with
      | some f => if pyStrip f.summary != "" then (none, true, visited) else (none, false, visited)
      | none => (none, false, visited)
    else
      match getFunctionRow s entry with
      | none => (none, true, entry :: visited)
      | some f =>
        match walkW (findNext s fuel) ((getCalleeRows s entry).map (fun c => c.function_id))
            (entry :: visited) with
        | (some t, _, v) => (some t, false, v)
        | (none, allDone, v) =>
          if pyStrip f.summary != "" then (none, allDone, v)
          else if allDone then (some f, false, v)
          else (none, false, v)

/-- The loop over all root candidates in `get_next_target` (summarizer.py lines
93 to 95), sharing one visited list across roots as the python code does. -/
def goRoots (s : Store) (fuel : Nat) : List Nat → List Nat → Option FunctionRow
  | [], _ => none
  | r :: rest, visited =>
    match findNext s fuel r visited with
    | (some t, _, _) => some t
    | (none, _, v) => goRoots s fuel rest v

/-- `SELECT DISTINCT function_id FROM functions` in table-scan order: keep the
first occurrence of each id. -/
def distinctFirst (xs : List Nat) : List Nat :=
  xs.foldl (fun acc x => if x ∈ acc then acc else acc ++ [x]) []

/-- Result of `get_next_target` (summarizer.py lines 76 to 159); the payload
fields built from the target row are kept as the row itself. -/
inductive NextResult where
  | err : NextResult
  | needsSummary : FunctionRow → NextResult
  | complete : NextResult
deriving Repr, DecidableEq

/-- summarizer.py `get_next_target`: try every function as a root of the
post-order traversal; report the first target found, `err` on an empty
functions table, `complete` otherwise. -/
def getNextTarget (s : Store) : NextResult :=
  let allFuncs := distinctFirst (s.functions.map (fun f => f.function_id))
  if allFuncs.isEmpty then .err
  else
    match goRoots s (s.functions.length + 1) allFuncs [] with
    | some t => .needsSummary t
    | none => .complete

/-- Status part of the dict returned by `update_summary` and `add_annotation`
in summarizer.py: ok, or the structured not-found error with its message. -/
inductive OpStatus where
  | okS : OpStatus
  | errS : String → OpStatus
deriving Repr, DecidableEq

/-- The function-id resolution shared by `update_summary` (summarizer.py lines
165 to 179) and `add_annotation` (lines 200 to 214), python truthiness
included: an id of 0 counts as absent, the name lookup is
`SELECT function_id FROM functions WHERE name = ? LIMIT 1`. -/
def resolveFid (s : Store) (function_name : String) (function_id : Option Nat) : Option Nat :=
  let fid1 : Option Nat :=
    match function_id with
    | some i => if i = 0 then none else some i
    | none => none
  let fid2 : Option Nat :=
    match fid1 with
    | some i => some i
    | none => (s.functions.find? (fun f => f.name == function_name)).map (fun f => f.function_id)
  match fid2 with
  | some i => if i = 0 then none else some i
  | none => none

/-- summarizer.py `update_summary` (lines 162 to 188). -/
def updateSummary (s : Store) (function_name : String) (summary : String)
    (function_id : Option Nat) : OpStatus × Store :=
  match resolveFid s function_name function_id with
  | none => (.errS ("Function not found: " ++ function_name), s)
  | some i => (.okS, indexUpdateSummary s i summary)

/-- The two condition kinds accepted by the annotate command. -/
inductive AnnType where
  | precondition : AnnType
  | postcondition : AnnType
deriving Repr, DecidableEq

/-- `SELECT COALESCE(MAX(sequence_order), -1) + 1 FROM table WHERE
function_id = ?` over a condition table. -/
def nextSeq (rows : List CondRow) (fid : Nat) : Nat :=
  ((rows.filter (fun r => r.function_id == fid)).map (fun r => r.sequence_order)).foldl
    (fun a b => max a (b + 1)) 0

/-- summarizer.py `add_annotation` (lines 191 to 237): resolve the function id,
compute the next sequence number and insert one row into the chosen table. -/
def add_annot (s : Store) (function_name : String) (ann_type : AnnType) (text : String)
    (function_id : Option Nat) : OpStatus × Store :=
  match resolveFid s function_name function_id with
  | none => (.errS ("Function not found: " ++ function_name), s)
  | some i =>
    match ann_type with
    | .precondition =>
      (.okS, { s with preconditions :=
        s.preconditions ++ [⟨i, text, nextSeq s.preconditions i⟩] })
    | .postcondition =>
      (.okS, { s with postconditions :=
        s.postconditions ++ [⟨i, text, nextSeq s.postconditions i⟩] })

/-- Outcome of one `copilot -p` invocation as observed by `call_copilot`
(batch_summarize.py lines 63 to 79): a timeout, a failure (non-zero exit or
exception), or the raw stdout text. -/
inductive OracleOutcome where
  | timeout : OracleOutcome
  | failed : OracleOutcome
  | output : String → OracleOutcome
deriving Repr, DecidableEq

/-- batch_summarize.py `call_copilot`: stripped stdout when the run succeeded
with non-blank output, the empty string on timeout, failure or blank output. -/
def callCopilot : OracleOutcome → String
  | .timeout => ""
  | .failed => ""
  | .output t => if pyStrip t == "" then "" else pyStrip t

/-- One json field of the conditions object, after decoding: absent, a list of
strings, or present with a non-list value. -/
inductive JField where
  | absent : JField
  | jlist : List String → JField
  | nonList : JField
deriving Repr, DecidableEq

/-- The decoded conditions response: `malformed` when the regex found no json
object or decoding failed, otherwise the two fields of the object. -/
inductive AnnResp where
  | malformed : AnnResp
  | obj : JField → JField → AnnResp
deriving Repr, DecidableEq

/-- `data.get(key, [])` on a decoded field. -/
def fieldList : JField → List String
  | .absent => []
  | .jlist xs => xs
  | .nonList => []

/-- The `isinstance(x, list)` guard: the default `[]` for an absent key is a
list, a non-list value is not. -/
def isListField : JField → Bool
  | .absent => true
  | .jlist _ => true
  | .nonList => false

/-- batch_summarize.py `parse_annotations` (lines 142 to 154), the json
decoding of the raw response being modelled by `AnnResp`: the empty pair on a
malformed response or when either field holds a non-list, the two lists
otherwise. -/
def parseAnns : AnnResp → List String × List String
  | .malformed => ([], [])
  | .obj pre post =>
    if isListField pre && isListField post then (fieldList pre, fieldList post)
    else ([], [])

/-- The fallback summary built in `process_single_function` (batch_summarize.py
lines 176 to 183) when the oracle returned nothing: the function name, the
names of up to three immediate callees, and the file. -/
def fallbackSummary (name : String) (calleeNames : List String) (file : String) : String :=
  name ++ ": " ++
    (if calleeNames.isEmpty then ""
     else "Calls " ++ String.intercalate ", " calleeNames ++ ". ") ++
    ("See source in " ++ file ++ ".")

/-- The part of the context dict of `get_function_context` (summarizer.py lines
313 to 380) that `process_single_function` consumes; the prompt-only fields
(source text, conditions) are omitted. -/
structure FuncContext where
  function_id : Nat
  name : String
  file : String
  callees : List FunctionRow
deriving Repr, DecidableEq

/-- Status of `get_function_context`. -/
inductive ContextResult where
  | ctxError : ContextResult
  | alreadySummarized : ContextResult
  | needs : FuncContext → ContextResult
deriving Repr, DecidableEq

/-- summarizer.py `get_function_context`: error for an unknown id, an
already-summarized marker when the stripped summary is non-empty, the context
otherwise. -/
def getFunctionContext (s : Store) (fid : Nat) : ContextResult :=
  match getFunctionRow s fid with
  | none => .ctxError
  | some f =>
    if pyStrip f.summary != "" then .alreadySummarized
    else .needs ⟨fid, f.name, f.file, getCalleeRows s fid⟩

/-- The per-function result record built by `process_single_function`
(batch_summarize.py lines 157 to 199); `status_ok` is true for status `ok`. -/
structure ProcResult where
  function_id : Nat
  name : String
  status_ok : Bool
  summary : String
  preconditions : List String
  postconditions : List String
deriving Repr, DecidableEq

/-- batch_summarize.py `process_single_function` for the function `fid` named
`name` of a batch: fetch the context, call the oracle for the summary (outcome
`oSum`), fall back to the deterministic placeholder when it yields nothing,
parse the conditions response (decoded outcome `oAnn`, a timeout or failure of
that call decoding to `malformed`), and keep at most three conditions of each
kind.  A context fetch that does not yield `needs_summary` gives an error
record; python-level exceptions are outside the model. -/
def processSingleFunction (s : Store) (oSum : OracleOutcome) (oAnn : AnnResp)
    (fid : Nat) (name : String) : ProcResult :=
  match getFunctionContext s fid with
  | .needs ctx =>
    let raw := callCopilot oSum
    let summary :=
      if raw == "" then
        fallbackSummary name ((ctx.callees.take 3).map (fun c => c.name)) ctx.file
      else raw
    let pp := parseAnns oAnn
    ⟨fid, name, true, summary, pp.1.take 3, pp.2.take 3⟩
  | _ => ⟨fid, name, false, "", [], []⟩

/-- One iteration of the save loop of `save_results_to_db` (batch_summarize.py
lines 202 to 231): results whose status is not ok are skipped; otherwise the
summary is written and the condition lists are inserted with the enumeration
index as sequence order. -/
def saveResult (s : Store) (r : ProcResult) : Store :=
  if r.status_ok then
    { s with
      functions := s.functions.map (fun f =>
        if f.function_id == r.function_id then { f with summary := r.summary } else f),
      preconditions :=
        s.preconditions ++ r.preconditions.enum.map (fun p => ⟨r.function_id, p.2, p.1⟩),
      postconditions :=
        s.postconditions ++ r.postconditions.enum.map (fun p => ⟨r.function_id, p.2, p.1⟩) }
  else s

/-- batch_summarize.py `save_results_to_db`: fold `saveResult` over the result
records; the final `conn.commit()` makes the batch visible at once. -/
def saveResultsToDb (s : Store) (rs : List ProcResult) : Store :=
  rs.foldl saveResult s

/-- batch_summarize.py `process_batch`: one oracle task per batch member, all
reading the same pre-batch store; the two oracle outcomes of a member are given
by the functions `oSum` and `oAnn` of its id. -/
def processBatch (s : Store) (oSum : Nat → OracleOutcome) (oAnn : Nat → AnnResp)
    (batch : List FunctionRow) : List ProcResult :=
  batch.map (fun f => processSingleFunction s (oSum f.function_id) (oAnn f.function_id)
    f.function_id f.name)

/-- The driving loop of batch_summarize.py `main` (lines 283 to 318) with an
unbounded function budget: query the next batch, stop on anything but an ok
batch, process the batch, save the successful results, repeat.  `fuel` bounds
the number of iterations only; the list of committed batches (as id lists) is
returned alongside the final store. -/
def mainLoop (oSum : Nat → OracleOutcome) (oAnn : Nat → AnnResp) (maxBatch : Nat) :
    Nat → Store → Store × List (List Nat)
  | 0, s => (s, [])
  | fuel + 1, s =>
    match getNextBatch s maxBatch with
    | .okBatch batch _ =>
      match mainLoop oSum oAnn maxBatch fuel (saveResultsToDb s
          ((processBatch s oSum oAnn batch).filter (fun r => r.status_ok))) with
      | (sf, bs) => (sf, batch.map (fun f => f.function_id) :: bs)
    | _ => (s, [])

/-- A python dict from a name to a set of names, as built by
`parse_all_function_info` in query_repo.py; the set is modelled as its
duplicate-free list in insertion order. -/
abbrev NameMap : Type := List (String × List String)

/-- Python set insertion: adding a member already present changes nothing. -/
def setAdd (xs : List String) (x : String) : List String :=
  if x ∈ xs then xs else xs ++ [x]

/-- Dict lookup. -/
def mapGet (m : NameMap) (k : String) : Option (List String) :=
  (m.find? (fun kv => kv.1 == k)).map (fun kv => kv.2)

/-- The pattern `if k not in m: m[k] = set()` followed by `m[k].add(x)`. -/
def mapAdd : NameMap → String → String → NameMap
  | [], k, x => [(k, [x])]
  | (k0, v) :: rest, k, x =>
    if k0 == k then (k0, setAdd v x) :: rest else (k0, v) :: mapAdd rest k x

/-- query_repo.py lines 189 to 195 (and identically lines 237 to 242 for
python sources): record one resolved call site, `none` when no callee name
could be derived (the call site is silently ignored).  The first component is
`fun_call_info` (callee to callers), the second `fun_callee_info` (caller to
callees). -/
def recordCall (m : NameMap × NameMap) (function_name : String) (called : Option String) :
    NameMap × NameMap :=
  match called with
  | none => m
  | some called_name =>
    (mapAdd m.1 called_name function_name, mapAdd m.2 function_name called_name)

/-- The loop over all call expressions of one function body: fold
`recordCall` over the resolved callee name of each call site. -/
def recordCalls (m : NameMap × NameMap) (function_name : String)
    (calls : List (Option String)) : NameMap × NameMap :=
  calls.foldl (fun acc c => recordCall acc function_name c) m

/-- The bucket of a key: its set, or the empty set when the key is absent. -/
def bucket (m : NameMap) (k : String) : List String :=
  (mapGet m k).getD []

/-- Acyclicity of the known-to-known part of the call graph, stated through a
topological rank: every call edge between known functions descends strictly.
For a finite graph this is equivalent to the absence of directed cycles. -/
def Acyclic (s : Store) : Prop :=
  ∃ rank : Nat → Nat, ∀ e ∈ s.call_edges,
    isKnown s e.1 = true → isKnown s e.2 = true → rank e.2 < rank e.1

/-- The composite summary rewrite a list of result records applies to one
functions row: later matching records win, exactly as the successive
`UPDATE` statements of `save_results_to_db` do. -/
def updAll (rs : List ProcResult) (g : FunctionRow) : FunctionRow :=
  rs.foldl (fun g r =>
    if r.status_ok && (g.function_id == r.function_id) then { g with summary := r.summary }
    else g) g

/-! Concrete stores used by witnesses and counterexamples. -/

/-- A single unannotated leaf function. -/
def rowG : FunctionRow := ⟨1, "g", "a.c", 1, 2, ""⟩

/-- Store holding only `rowG`. -/
def sOneFn : Store := ⟨[rowG], [], [], []⟩

/-- Two-node mutual recursion: A calls B, B calls A, both unannotated. -/
def sCyc : Store :=
  ⟨[⟨1, "A", "f.c", 1, 2, ""⟩, ⟨2, "B", "f.c", 3, 4, ""⟩], [(1, 2), (2, 1)], [], []⟩

/-- The spec section 8 example: main calls helper, helper is a leaf. -/
def sPair : Store :=
  ⟨[⟨1, "main", "m.c", 1, 5, ""⟩, ⟨2, "helper", "m.c", 6, 9, ""⟩], [(1, 2)], [], []⟩

/-- Two distinct functions sharing the name `f` in different files. -/
def sDupName : Store :=
  ⟨[⟨1, "f", "a.c", 1, 2, ""⟩, ⟨2, "f", "b.c", 5, 6, ""⟩], [], [], []⟩

/-- A single function that is already annotated. -/
def sDone : Store := ⟨[⟨1, "g", "a.c", 1, 2, "done"⟩], [], [], []⟩

/-- A single function whose summary is whitespace only. -/
def rowW : FunctionRow := ⟨1, "w", "a.c", 1, 2, " "⟩

/-- Store holding only `rowW`: annotated for the exact comparison of batch
mode, unannotated for the stripping comparison of single-target mode. -/
def sWs : Store := ⟨[rowW], [], [], []⟩

/-- A single unannotated function calling only an unknown id. -/
def rowU : FunctionRow := ⟨1, "u", "a.c", 1, 2, ""⟩

/-- A single unannotated function whose only callee id is unknown. -/
def sUnk : Store := ⟨[rowU], [(1, 99)], [], []⟩

/-- A conditions response with more than three conditions in each list. -/
def annFive : AnnResp :=
  .obj (.jlist ["p1", "p2", "p3", "p4", "p5"]) (.jlist ["q1", "q2", "q3", "q4"])

/-! Helper lemmas about the set-valued dicts of the builder. -/

theorem setAdd_mem (xs : List String) (x y : String) :
    y ∈ setAdd xs x ↔ y ∈ xs ∨ y = x := by
  unfold setAdd
  split
  · constructor
    · exact fun h => Or.inl h
    · rintro (h | rfl)
      · exact h
      · assumption
  · simp [List.mem_append]

theorem setAdd_nodup (xs : List String) (x : String) (h : xs.Nodup) :
    (setAdd xs x).Nodup := by
  unfold setAdd
  split
  · exact h
  · simp_all [List.nodup_append]

theorem setAdd_idem (xs : List String) (x : String) :
    setAdd (setAdd xs x) x = setAdd xs x := by
  by_cases h : x ∈ xs <;> simp [setAdd, h]

theorem bucket_mapAdd_same (m : NameMap) (k x : String) :
    bucket (mapAdd m k x) k = setAdd (bucket m k) x := by
  induction m with
  | nil => simp [bucket, mapAdd, mapGet, setAdd]
  | cons kv rest ih =>
    obtain ⟨k0, v⟩ := kv
    by_cases h : k0 = k
    · subst h
      simp [bucket, mapAdd, mapGet, List.find?_cons_of_pos]
    · have hb : (k0 == k) = false := by simp [h]
      rw [mapAdd, if_neg (by simp [hb])]
      rw [bucket, mapGet, List.find?_cons_of_neg _ (by simp [hb])]
      rw [bucket, mapGet, List.find?_cons_of_neg _ (by simp [hb])] at *
      exact ih

theorem mapGet_mapAdd_other (m : NameMap) (k q x : String) (h : q ≠ k) :
    mapGet (mapAdd m k x) q = mapGet m q := by
  have hkq : (k == q) = false := by simp [Ne.symm h]
  induction m with
  | nil =>
    rw [mapAdd, mapGet, mapGet, List.find?_cons_of_neg _ (by simpa using Ne.symm h),
      List.find?_nil]
  | cons kv rest ih =>
    obtain ⟨k0, v⟩ := kv
    by_cases h0 : k0 = k
    · subst h0
      rw [mapAdd, if_pos (by simp)]
      have hq0 : (k0 == q) = false := hkq
      rw [mapGet, mapGet, List.find?_cons_of_neg _ (by simp_all),
        List.find?_cons_of_neg _ (by simp_all)]
    · rw [mapAdd, if_neg (by simp [h0])]
      by_cases hq : k0 = q
      · subst hq
        rw [mapGet, mapGet, List.find?_cons_of_pos _ (by simp),
          List.find?_cons_of_pos _ (by simp)]
      · rw [mapGet, mapGet, List.find?_cons_of_neg _ (by simp [hq]),
          List.find?_cons_of_neg _ (by simp [hq])]
        exact ih

theorem mapAdd_nodupVals (m : NameMap) (k x : String)
    (h : ∀ kv ∈ m, (kv.2 : List String).Nodup) :
    ∀ kv ∈ mapAdd m k x, (kv.2 : List String).Nodup := by
  induction m with
  | nil =>
    intro kv hkv
    simp only [mapAdd, List.mem_singleton] at hkv
    subst hkv
    simp
  | cons kv0 rest ih =>
    obtain ⟨k0, v⟩ := kv0
    intro kv hkv
    have hrest : ∀ kv ∈ rest, (kv.2 : List String).Nodup :=
      fun kv hm => h kv (List.mem_cons_of_mem _ hm)
    by_cases h0 : k0 = k
    · have hb : (k0 == k) = true := by simp [h0]
      rw [mapAdd, if_pos hb] at hkv
      rcases List.mem_cons.mp hkv with h1 | h1
      · subst h1
        exact setAdd_nodup v x (h (k0, v) (List.mem_cons_self _ _))
      · exact hrest kv h1
    · have hb : (k0 == k) = false := by simp [h0]
      rw [mapAdd, if_neg (by simp [hb])] at hkv
      rcases List.mem_cons.mp hkv with h1 | h1
      · subst h1
        exact h (k0, v) (List.mem_cons_self _ _)
      · exact ih hrest kv h1

theorem foldl_setAdd_nodup (ys : List String) (xs : List String) (h : xs.Nodup) :
    (List.foldl setAdd xs ys).Nodup := by
  induction ys generalizing xs with
  | nil => exact h
  | cons y ys ih => exact ih (setAdd xs y) (setAdd_nodup xs y h)

theorem foldl_setAdd_mem (ys : List String) (xs : List String) (z : String) :
    z ∈ List.foldl setAdd xs ys ↔ z ∈ xs ∨ z ∈ ys := by
  induction ys generalizing xs with
  | nil => simp
  | cons y ys ih =>
    rw [List.foldl_cons, ih, setAdd_mem]
    constructor
    · rintro ((h | rfl) | h)
      · exact Or.inl h
      · exact Or.inr (List.mem_cons_self _ _)
      · exact Or.inr (List.mem_cons_of_mem _ h)
    · rintro (h | h)
      · exact Or.inl (Or.inl h)
      · rcases List.mem_cons.mp h with rfl | h
        · exact Or.inl (Or.inr rfl)
        · exact Or.inr h

theorem recordCalls_callee_bucket (f : String) (calls : List (Option String))
    (ci ce : NameMap) :
    bucket (recordCalls (ci, ce) f calls).2 f =
      List.foldl setAdd (bucket ce f) (calls.filterMap id) := by
  induction calls generalizing ci ce with
  | nil => rfl
  | cons c rest ih =>
    cases c with
    | none => simpa [recordCalls, recordCall] using ih ci ce
    | some cn =>
      have h1 : recordCalls (ci, ce) f (some cn :: rest) =
          recordCalls (mapAdd ci cn f, mapAdd ce f cn) f rest := rfl
      rw [h1, ih, bucket_mapAdd_same]
      rfl

theorem recordCalls_caller_bucket (f : String) (calls : List (Option String))
    (c : String) (ci ce : NameMap) :
    bucket (recordCalls (ci, ce) f calls).1 c =
      if some c ∈ calls then setAdd (bucket ci c) f else bucket ci c := by
  induction calls generalizing ci ce with
  | nil => simp [recordCalls]
  | cons c0 rest ih =>
    cases c0 with
    | none =>
      have h1 : recordCalls (ci, ce) f (none :: rest) = recordCalls (ci, ce) f rest := rfl
      rw [h1, ih]
      simp
    | some cn =>
      have h1 : recordCalls (ci, ce) f (some cn :: rest) =
          recordCalls (mapAdd ci cn f, mapAdd ce f cn) f rest := rfl
      rw [h1, ih]
      by_cases hc : cn = c
      · subst hc
        rw [bucket_mapAdd_same]
        by_cases hr : some cn ∈ rest <;> simp [hr, setAdd_idem]
      · have hg : bucket (mapAdd ci cn f) c = bucket ci c := by
          rw [bucket, bucket, mapGet_mapAdd_other ci cn c f (fun hh => hc hh.symm)]
        rw [hg]
        have hm : (some c ∈ some cn :: rest) ↔ (some c ∈ rest) := by
          simp [List.mem_cons, hc, Ne.symm hc]
        simp only [hm]

theorem recordCalls_nodupVals (f : String) (calls : List (Option String))
    (ci ce : NameMap) (hci : ∀ kv ∈ ci, (kv.2 : List String).Nodup)
    (hce : ∀ kv ∈ ce, (kv.2 : List String).Nodup) :
    (∀ kv ∈ (recordCalls (ci, ce) f calls).1, (kv.2 : List String).Nodup) ∧
      (∀ kv ∈ (recordCalls (ci, ce) f calls).2, (kv.2 : List String).Nodup) := by
  induction calls generalizing ci ce with
  | nil => exact ⟨hci, hce⟩
  | cons c0 rest ih =>
    cases c0 with
    | none => exact ih ci ce hci hce
    | some cn =>
      exact ih (mapAdd ci cn f) (mapAdd ce f cn)
        (mapAdd_nodupVals ci cn f hci) (mapAdd_nodupVals ce f cn hce)

theorem count_of_nodup (l : List String) (h : l.Nodup) (x : String) :
    l.count x = if x ∈ l then 1 else 0 := by
  split
  · exact List.count_eq_one_of_mem h (by assumption)
  · exact List.count_eq_zero_of_not_mem (by assumption)

/-- C9: within one function body, repeated calls resolving to the same callee
name produce exactly one edge, and the per-caller callee collection and the
per-callee caller collection of the Builder behave as sets (duplicate-free). -/
theorem c9_edges_deduplicated (fname : String) (calls : List (Option String)) (c : String) :
    ((bucket (recordCalls ([], []) fname calls).2 fname).count c
        = if some c ∈ calls then 1 else 0)
    ∧ ((bucket (recordCalls ([], []) fname calls).1 c).count fname
        = if some c ∈ calls then 1 else 0)
    ∧ (∀ kv ∈ (recordCalls ([], []) fname calls).1, (kv.2 : List String).Nodup)
    ∧ (∀ kv ∈ (recordCalls ([], []) fname calls).2, (kv.2 : List String).Nodup) := by
  have hnd := recordCalls_nodupVals fname calls [] []
    (by intro kv h; cases h) (by intro kv h; cases h)
  refine ⟨?_, ?_, hnd.1, hnd.2⟩
  · rw [recordCalls_callee_bucket]
    have hb : bucket ([] : NameMap) fname = [] := rfl
    rw [hb]
    rw [count_of_nodup _ (foldl_setAdd_nodup _ _ List.nodup_nil)]
    have hmem : c ∈ List.foldl setAdd [] (calls.filterMap id) ↔ some c ∈ calls := by
      rw [foldl_setAdd_mem]
      simp [List.mem_filterMap]
    by_cases h : some c ∈ calls <;> simp [hmem, h]
  · rw [recordCalls_caller_bucket]
    have hb : bucket ([] : NameMap) c = [] := rfl
    rw [hb]
    by_cases h : some c ∈ calls <;> simp [h, setAdd]

/-! Helper lemmas about row lookup and the store. -/

theorem find?_id_of_mem (l : List FunctionRow)
    (hn : (l.map (fun f => f.function_id)).Nodup) (f : FunctionRow) (hf : f ∈ l) :
    l.find? (fun g => g.function_id == f.function_id) = some f := by
  induction l with
  | nil => cases hf
  | cons g rest ih =>
    rw [List.map_cons, List.nodup_cons] at hn
    rcases List.mem_cons.mp hf with rfl | hf2
    · rw [List.find?_cons_of_pos _ (by simp)]
    · have hne : g.function_id ≠ f.function_id := by
        intro he
        exact hn.1 (he ▸ List.mem_map_of_mem _ hf2)
      rw [List.find?_cons_of_neg _ (by simp [hne])]
      exact ih hn.2 hf2

theorem getFunctionRow_of_mem (s : Store) (hn : idsNodup s) (f : FunctionRow)
    (hf : f ∈ s.functions) : getFunctionRow s f.function_id = some f :=
  find?_id_of_mem s.functions hn f hf

theorem getFunctionRow_mem (s : Store) (fid : Nat) (f : FunctionRow)
    (h : getFunctionRow s fid = some f) : f ∈ s.functions ∧ f.function_id = fid := by
  refine ⟨List.mem_of_find?_eq_some h, ?_⟩
  have := List.find?_some h
  simpa using this

theorem data_ne_nil_of_append_right (a b : String) (h : b.data ≠ []) :
    a ++ b ≠ "" := by
  intro he
  have hd : (a ++ b).data = a.data ++ b.data := by simp
  rw [he] at hd
  have : ([] : List Char) = a.data ++ b.data := hd
  rcases List.append_eq_nil.mp this.symm with ⟨-, h2⟩
  exact h h2

theorem fallbackSummary_ne_empty (name : String) (calleeNames : List String)
    (file : String) : fallbackSummary name calleeNames file ≠ "" := by
  unfold fallbackSummary
  exact data_ne_nil_of_append_right _ _ (by
    have : ("See source in " ++ file ++ ".").data
        = ("See source in " ++ file).data ++ ['.'] := by simp
    rw [this]
    simp)

/-! Lemmas about the per-function processing step. -/

theorem getFunctionContext_needs (s : Store) (f : FunctionRow)
    (h : getFunctionRow s f.function_id = some f) (hu : pyStrip f.summary = "") :
    getFunctionContext s f.function_id =
      .needs ⟨f.function_id, f.name, f.file, getCalleeRows s f.function_id⟩ := by
  rw [getFunctionContext, h]
  simp [hu]

theorem processSingleFunction_eq (s : Store) (f : FunctionRow)
    (h : getFunctionRow s f.function_id = some f) (hu : pyStrip f.summary = "")
    (o : OracleOutcome) (a : AnnResp) :
    processSingleFunction s o a f.function_id f.name =
      ⟨f.function_id, f.name, true,
        if callCopilot o == "" then
          fallbackSummary f.name (((getCalleeRows s f.function_id).take 3).map
            (fun c => c.name)) f.file
        else callCopilot o,
        (parseAnns a).1.take 3, (parseAnns a).2.take 3⟩ := by
  rw [processSingleFunction, getFunctionContext_needs s f h hu]

theorem processSingleFunction_summary_ne (s : Store) (f : FunctionRow)
    (h : getFunctionRow s f.function_id = some f) (hu : pyStrip f.summary = "")
    (o : OracleOutcome) (a : AnnResp) :
    (processSingleFunction s o a f.function_id f.name).status_ok = true ∧
      (processSingleFunction s o a f.function_id f.name).summary ≠ "" := by
  rw [processSingleFunction_eq s f h hu o a]
  refine ⟨rfl, ?_⟩
  by_cases hc : callCopilot o == "" <;> simp only [hc]
  · simp only [if_pos]
    exact fallbackSummary_ne_empty _ _ _
  · simp only [Bool.false_eq_true, if_neg, not_false_iff]
    simpa using hc

/-- C10: of the condition lists the oracle returns, only the first three
preconditions and first three postconditions appear in the result record and
in the rows the commit step inserts; later conditions are discarded. -/
theorem c10_conditions_truncated_to_three (s : Store) (f : FunctionRow) (hn : idsNodup s)
    (hf : f ∈ s.functions) (hu : pyStrip f.summary = "") (o : OracleOutcome) (a : AnnResp) :
    ((processSingleFunction s o a f.function_id f.name).preconditions
        = (parseAnns a).1.take 3)
    ∧ ((processSingleFunction s o a f.function_id f.name).postconditions
        = (parseAnns a).2.take 3)
    ∧ ((saveResultsToDb s [processSingleFunction s o a f.function_id f.name]).preconditions
        = s.preconditions ++ ((parseAnns a).1.take 3).enum.map
            (fun p => ⟨f.function_id, p.2, p.1⟩))
    ∧ ((saveResultsToDb s [processSingleFunction s o a f.function_id f.name]).postconditions
        = s.postconditions ++ ((parseAnns a).2.take 3).enum.map
            (fun p => ⟨f.function_id, p.2, p.1⟩)) := by
  have hrow := getFunctionRow_of_mem s hn f hf
  rw [processSingleFunction_eq s f hrow hu o a]
  refine ⟨rfl, rfl, ?_, ?_⟩ <;> simp [saveResultsToDb, saveResult]

/-- Witness for C10 at a concrete store and a five-condition response. -/
theorem c10_witness :
    idsNodup sOneFn ∧ rowG ∈ sOneFn.functions ∧ pyStrip rowG.summary = ""
    ∧ ((saveResultsToDb sOneFn [processSingleFunction sOneFn (.output "S") annFive
          rowG.function_id rowG.name]).preconditions
        = sOneFn.preconditions ++ ((parseAnns annFive).1.take 3).enum.map
            (fun p => ⟨rowG.function_id, p.2, p.1⟩))
    ∧ (parseAnns annFive).1.take 3 = ["p1", "p2", "p3"] :=
  ⟨by decide, by decide, rfl,
    (c10_conditions_truncated_to_three sOneFn rowG (by decide) (by decide) rfl
      (.output "S") annFive).2.2.1, by decide⟩

/-- C5: when the oracle summary call yields nothing, the result record is still
ok and carries the deterministic placeholder built from the function name, the
names of its first three known callees and its file, which is never empty; a
malformed or non-list conditions response yields empty condition lists. -/
theorem c5_fallback_placeholder (s : Store) (f : FunctionRow) (hn : idsNodup s)
    (hf : f ∈ s.functions) (hu : pyStrip f.summary = "") (o : OracleOutcome)
    (ho : callCopilot o = "") (a : AnnResp) :
    ((processSingleFunction s o a f.function_id f.name).status_ok = true)
    ∧ ((processSingleFunction s o a f.function_id f.name).summary
        = fallbackSummary f.name (((getCalleeRows s f.function_id).take 3).map
            (fun c => c.name)) f.file)
    ∧ ((processSingleFunction s o a f.function_id f.name).summary ≠ "")
    ∧ (parseAnns .malformed = ([], []))
    ∧ (∀ pre post, isListField pre = false ∨ isListField post = false →
        parseAnns (.obj pre post) = ([], [])) := by
  have hrow := getFunctionRow_of_mem s hn f hf
  rw [processSingleFunction_eq s f hrow hu o a]
  have hcb : (callCopilot o == "") = true := by simp [ho]
  refine ⟨rfl, by simp [hcb], ?_, rfl, ?_⟩
  · simp only [hcb, if_pos]
    exact fallbackSummary_ne_empty _ _ _
  · intro pre post h
    rcases h with h | h <;> simp [parseAnns, h]

/-- Witness for C5 at a concrete store with a timed-out oracle call. -/
theorem c5_witness :
    idsNodup sOneFn ∧ callCopilot .timeout = ""
    ∧ ((processSingleFunction sOneFn .timeout .malformed rowG.function_id rowG.name).summary
        = fallbackSummary rowG.name (((getCalleeRows sOneFn rowG.function_id).take 3).map
            (fun c => c.name)) rowG.file)
    ∧ fallbackSummary rowG.name (((getCalleeRows sOneFn rowG.function_id).take 3).map
        (fun c => c.name)) rowG.file = "g: See source in a.c." :=
  ⟨by decide, rfl,
    (c5_fallback_placeholder sOneFn rowG (by decide) (by decide) rfl .timeout rfl
      .malformed).2.1, by decide⟩

/-- C3 counterexample: one driving-loop iteration on a store with a single
unannotated function whose oracle invocation times out.  The claim says no
summary is written for it in the batch commit; the code commits the non-empty
fallback placeholder instead. -/
theorem c3_cex_timeout_commits_placeholder :
    ((mainLoop (fun _ => .timeout) (fun _ => .malformed) 50 1 sOneFn).1.functions
      = [⟨1, "g", "a.c", 1, 2, "g: See source in a.c."⟩])
    ∧ annotatedB (mainLoop (fun _ => .timeout) (fun _ => .malformed) 50 1 sOneFn).1 1 = true := by
  constructor <;> decide

/-- C3 amended: only tasks whose result status is not ok (a failed context
fetch or a python-level exception) are skipped by the commit step, which then
writes nothing at all for them and leaves readiness unchanged, so they are
retried; a task whose oracle summary invocation times out, fails or returns an
empty response still produces an ok record whose committed summary is the
non-empty placeholder. -/
theorem c3_amended_failed_tasks_skipped (s : Store) (hn : idsNodup s) :
    (∀ rs : List ProcResult, (∀ r ∈ rs, r.status_ok = false) →
      saveResultsToDb s rs = s)
    ∧ (∀ rs : List ProcResult, (∀ r ∈ rs, r.status_ok = false) →
      ∀ k, getNextBatch (saveResultsToDb s rs) k = getNextBatch s k)
    ∧ (∀ f ∈ s.functions, pyStrip f.summary = "" → ∀ a : AnnResp,
        (processSingleFunction s .timeout a f.function_id f.name).status_ok = true
        ∧ (processSingleFunction s .timeout a f.function_id f.name).summary ≠ "") := by
  have hskip : ∀ rs : List ProcResult, (∀ r ∈ rs, r.status_ok = false) →
      saveResultsToDb s rs = s := by
    intro rs h
    induction rs with
    | nil => rfl
    | cons r rest ih =>
      have hr : saveResult s r = s := by
        rw [saveResult, if_neg]
        rw [h r (List.mem_cons_self _ _)]
        exact Bool.false_ne_true
      rw [saveResultsToDb, List.foldl_cons, hr]
      exact ih (fun r hm => h r (List.mem_cons_of_mem _ hm))
  refine ⟨hskip, fun rs h k => by rw [hskip rs h], ?_⟩
  intro f hf hu a
  exact processSingleFunction_summary_ne s f (getFunctionRow_of_mem s hn f hf) hu .timeout a

/-- Witness for the amended C3 at a concrete store and error record. -/
theorem c3_amended_witness :
    idsNodup sOneFn
    ∧ saveResultsToDb sOneFn [⟨1, "g", false, "", [], []⟩] = sOneFn
    ∧ (processSingleFunction sOneFn .timeout .malformed rowG.function_id rowG.name).status_ok
        = true :=
  ⟨by decide,
    (c3_amended_failed_tasks_skipped sOneFn (by decide)).1 [⟨1, "g", false, "", [], []⟩]
      (by intro r h; simp at h; rw [h]),
    ((c3_amended_failed_tasks_skipped sOneFn (by decide)).2.2 rowG (by decide) rfl
      .malformed).1⟩

/-- The id resolution picks a supplied non-zero id unchanged. -/
theorem resolveFid_some (s : Store) (nm : String) (fid : Nat) (h : fid ≠ 0) :
    resolveFid s nm (some fid) = some fid := by
  simp [resolveFid, h]

/-- C7 counterexample: the store holds two distinct functions named `f`, one in
`a.c` (id 1) and one in `b.c` (id 2).  A name-addressed update or annotation
request carrying the shared name, which is the only name-based identification
either of them has, always mutates the row of id 1; the claim says a request
addressed to the `b.c` function never mutates the same-named function in the
other file, but by name it inevitably does. -/
theorem c7_cex_name_request_conflates :
    (updateSummary sDupName "f" "S" none
      = (.okS, ⟨[⟨1, "f", "a.c", 1, 2, "S"⟩, ⟨2, "f", "b.c", 5, 6, ""⟩], [], [], []⟩))
    ∧ ((add_annot sDupName "f" .precondition "t" none).2.preconditions = [⟨1, "t", 0⟩])
    ∧ ((add_annot sDupName "f" .precondition "t" none).2.functions = sDupName.functions) := by
  refine ⟨by decide, by decide, by decide⟩

/-- C7 amended: an update or annotation request carrying an explicit non-zero
function id mutates only the rows and condition lists of that id, never a
same-named function with a different id; a name-only request instead resolves
to the first table row with that name regardless of file, so it can land on
the same-named function of another file. -/
theorem c7_amended_id_requests_do_not_conflate (s : Store) (fid : Nat) (hfid : fid ≠ 0)
    (nm summ txt : String) (ty : AnnType) :
    (∀ g ∈ s.functions, g.function_id ≠ fid →
      g ∈ (updateSummary s nm summ (some fid)).2.functions)
    ∧ ((updateSummary s nm summ (some fid)).2.functions.length = s.functions.length)
    ∧ ((updateSummary s nm summ (some fid)).2.preconditions = s.preconditions)
    ∧ ((updateSummary s nm summ (some fid)).2.postconditions = s.postconditions)
    ∧ ((add_annot s nm ty txt (some fid)).2.functions = s.functions)
    ∧ (∀ gid, gid ≠ fid →
        ((add_annot s nm ty txt (some fid)).2.preconditions.filter
            (fun r => r.function_id == gid)
          = s.preconditions.filter (fun r => r.function_id == gid))
        ∧ ((add_annot s nm ty txt (some fid)).2.postconditions.filter
            (fun r => r.function_id == gid)
          = s.postconditions.filter (fun r => r.function_id == gid))) := by
  have hres := resolveFid_some s nm fid hfid
  have hup : updateSummary s nm summ (some fid) = (.okS, indexUpdateSummary s fid summ) := by
    rw [updateSummary, hres]
  refine ⟨?_, ?_, ?_, ?_, ?_, ?_⟩
  · intro g hg hne
    rw [hup]
    have : (if g.function_id == fid then { g with summary := summ } else g) = g := by
      simp [hne]
    exact this ▸ List.mem_map_of_mem _ hg
  · rw [hup]
    exact List.length_map _ _
  · rw [hup]
    rfl
  · rw [hup]
    rfl
  · rw [add_annot, hres]
    cases ty <;> rfl
  · intro gid hgid
    have hone : ∀ rows : List CondRow,
        (rows ++ [(⟨fid, txt, nextSeq rows fid⟩ : CondRow)]).filter
            (fun r => r.function_id == gid)
          = rows.filter (fun r => r.function_id == gid) := by
      intro rows
      rw [List.filter_append]
      have hb2 : (fid == gid) = false := by simp [Ne.symm hgid]
      have : List.filter (fun r => r.function_id == gid)
          [(⟨fid, txt, nextSeq rows fid⟩ : CondRow)] = [] := by
        simp [List.filter, hb2]
      rw [this, List.append_nil]
    rw [add_annot, hres]
    cases ty
    · exact ⟨hone s.preconditions, rfl⟩
    · exact ⟨rfl, hone s.postconditions⟩

/-- Witness for the amended C7 at the duplicate-name store, addressing id 2. -/
theorem c7_amended_witness :
    (2 : Nat) ≠ 0
    ∧ (updateSummary sDupName "f" "S2" (some 2)).2.preconditions = sDupName.preconditions
    ∧ (add_annot sDupName "f" .precondition "t" (some 2)).2.functions = sDupName.functions :=
  ⟨by decide,
    (c7_amended_id_requests_do_not_conflate sDupName 2 (by decide) "f" "S2" "t"
      .precondition).2.2.1,
    (c7_amended_id_requests_do_not_conflate sDupName 2 (by decide) "f" "S2" "t"
      .precondition).2.2.2.2.1⟩

/-- C8 counterexample: an update naming the known function `g` but carrying the
unknown id 5 reports ok (not a structured error), and the corresponding
annotate request reports ok and inserts a dangling condition row for id 5, so
it is not a no-op either. -/
theorem c8_cex_unknown_id_not_reported :
    (updateSummary sOneFn "g" "S" (some 5) = (.okS, sOneFn))
    ∧ ((add_annot sOneFn "g" .precondition "t" (some 5)).1 = .okS)
    ∧ ((add_annot sOneFn "g" .precondition "t" (some 5)).2.preconditions = [⟨5, "t", 0⟩]) := by
  refine ⟨by decide, by decide, by decide⟩

/-- C8 amended: a request whose name lookup finds no row is answered with the
structured not-found error and is a no-op; a request carrying an unknown
non-zero id is not detected: update reports ok and changes no row, annotate
reports ok and inserts a condition row for the unknown id. -/
theorem c8_amended_not_found_handling (s : Store) :
    (∀ nm summ, s.functions.find? (fun f => f.name == nm) = none →
      updateSummary s nm summ none = (.errS ("Function not found: " ++ nm), s))
    ∧ (∀ nm ty txt, s.functions.find? (fun f => f.name == nm) = none →
      add_annot s nm ty txt none = (.errS ("Function not found: " ++ nm), s))
    ∧ (∀ nm summ fid, fid ≠ 0 → isKnown s fid = false →
      updateSummary s nm summ (some fid) = (.okS, s))
    ∧ (∀ nm ty txt fid, fid ≠ 0 → isKnown s fid = false →
      ((add_annot s nm ty txt (some fid)).1 = .okS)
      ∧ ((add_annot s nm .precondition txt (some fid)).2.preconditions
          = s.preconditions ++ [⟨fid, txt, nextSeq s.preconditions fid⟩])) := by
  have hresn : ∀ nm, s.functions.find? (fun f => f.name == nm) = none →
      resolveFid s nm none = none := by
    intro nm h
    simp [resolveFid, h]
  refine ⟨?_, ?_, ?_, ?_⟩
  · intro nm summ h
    rw [updateSummary, hresn nm h]
  · intro nm ty txt h
    rw [add_annot, hresn nm h]
  · intro nm summ fid hfid hunk
    rw [updateSummary, resolveFid_some s nm fid hfid]
    have hrows : ∀ g ∈ s.functions, g.function_id ≠ fid := by
      intro g hg he
      rw [isKnown] at hunk
      have : s.functions.any (fun f => f.function_id == fid) = true :=
        List.any_eq_true.mpr ⟨g, hg, by simp [he]⟩
      rw [hunk] at this
      cases this
    have hmap : s.functions.map (fun f =>
        if f.function_id == fid then { f with summary := summ } else f) = s.functions := by
      conv_rhs => rw [(List.map_id s.functions).symm]
      apply List.map_congr_left
      intro g hg
      simp [hrows g hg]
    show (OpStatus.okS, indexUpdateSummary s fid summ) = (.okS, s)
    rw [indexUpdateSummary]
    cases s
    simp only at hmap
    rw [hmap]
  · intro nm ty txt fid hfid hunk
    constructor
    · rw [add_annot, resolveFid_some s nm fid hfid]
      cases ty <;> rfl
    · rw [add_annot, resolveFid_some s nm fid hfid]

/-- Witness for the amended C8 at concrete requests. -/
theorem c8_amended_witness :
    (sOneFn.functions.find? (fun f => f.name == "zz") = none)
    ∧ updateSummary sOneFn "zz" "S" none = (.errS ("Function not found: " ++ "zz"), sOneFn)
    ∧ isKnown sOneFn 5 = false
    ∧ updateSummary sOneFn "g" "S" (some 5) = (.okS, sOneFn) :=
  ⟨by decide, (c8_amended_not_found_handling sOneFn).1 "zz" "S" (by decide), by decide,
    (c8_amended_not_found_handling sOneFn).2.2.1 "g" "S" 5 (by decide) (by decide)⟩

/-- C4 counterexample: ten iterations of the driving loop on the two-node
mutual recursion commit no batch and leave the store unchanged, and the
readiness queries keep answering blocked (batch mode) and complete
(single-target mode): no member of the cycle is ever nominated. -/
theorem c4_cex_cycle_never_nominated :
    (mainLoop (fun _ => .output "S") (fun _ => .malformed) 50 10 sCyc = (sCyc, []))
    ∧ getNextBatch sCyc 50 = .blocked 2
    ∧ getNextTarget sCyc = .complete
    ∧ unannotatedCount sCyc = 2 := by
  refine ⟨by decide, by decide, by decide, rfl⟩

/-- C4 amended: on the two-node mutual recursion no member is ever nominated:
batch mode answers blocked and single-target mode answers complete for every
batch limit, and the driving loop, which stops at the first non-ok batch
answer, therefore exits at once with the store unchanged and no batch
committed, for every iteration bound, budget and oracle. -/
theorem c4_amended_cycle_stays_blocked (fuel maxB : Nat) (oS : Nat → OracleOutcome)
    (oA : Nat → AnnResp) :
    mainLoop oS oA maxB fuel sCyc = (sCyc, [])
    ∧ getNextBatch sCyc maxB = .blocked 2
    ∧ getNextTarget sCyc = .complete := by
  have hb : ∀ k, getNextBatch sCyc k = .blocked 2 := by
    intro k
    rw [getNextBatch]
    have hf : sCyc.functions.filter (fun f => readyRow sCyc f) = [] := by decide
    rw [hf, List.take_nil]
    decide
  refine ⟨?_, hb maxB, by decide⟩
  cases fuel with
  | zero => rfl
  | succ n =>
    rw [mainLoop, hb maxB]

/-- C2 counterexample: on the two-node mutual recursion two unannotated
functions remain and none is ready, so the claim requires batch mode to answer
blocked and single-target mode to give an equivalent empty non-complete
answer; batch mode does answer blocked, but single-target mode answers
complete, so the two modes do not report complete exactly when no unannotated
function remains. -/
theorem c2_cex_modes_disagree_on_cycle :
    getNextTarget sCyc = .complete
    ∧ getNextBatch sCyc 50 = .blocked 2
    ∧ unannotatedCount sCyc = 2 := by
  refine ⟨by decide, by decide, rfl⟩

/-! Soundness of the post-order traversal of single-target mode. -/

theorem getCalleeRows_self_lookup (s : Store) (fid : Nat) :
    ∀ c ∈ getCalleeRows s fid, getFunctionRow s c.function_id = some c := by
  intro c hc
  rw [getCalleeRows] at hc
  rcases List.mem_filterMap.mp hc with ⟨e, -, he⟩
  have hid : c.function_id = e.2 := by
    have := List.find?_some he
    simpa using this
  rw [hid]
  exact he

theorem findNext_done_sound (s : Store) (fuel : Nat) :
    ∀ entry visited v, findNext s fuel entry visited = (none, true, v) →
      getFunctionRow s entry = none ∨
        ∃ r, getFunctionRow s entry = some r ∧ pyStrip r.summary ≠ "" := by
  cases fuel with
  | zero =>
    intro entry visited v h
    rw [findNext] at h
    simp at h
  | succ n =>
    intro entry visited v h
    rw [findNext] at h
    by_cases hv : entry ∈ visited
    · rw [if_pos hv] at h
      cases hrow : getFunctionRow s entry with
      | none =>
        rw [hrow] at h
        simp at h
      | some f =>
        rw [hrow] at h
        by_cases hs : (pyStrip f.summary != "") = true
        · exact Or.inr ⟨f, rfl, by simpa using hs⟩
        · simp [hs] at h
    · rw [if_neg hv] at h
      cases hrow : getFunctionRow s entry with
      | none => exact Or.inl rfl
      | some f =>
        rw [hrow] at h
        rcases hw : walkW (findNext s n)
            ((getCalleeRows s entry).map (fun c => c.function_id)) (entry :: visited)
          with ⟨t0, d0, v0⟩
        rw [hw] at h
        cases t0 with
        | some t => simp at h
        | none =>
          by_cases hs : (pyStrip f.summary != "") = true
          · exact Or.inr ⟨f, rfl, by simpa using hs⟩
          · by_cases hd : d0 = true
            · subst hd
              simp [hs] at h
            · simp [hs, hd] at h

/-- Target-soundness of one traversal result: a returned target is a known
unannotated row all of whose known callees are annotated. -/
def TargetSound (s : Store) (res : Option FunctionRow × Bool × List Nat) : Prop :=
  ∀ t, res.1 = some t →
    t ∈ s.functions ∧ pyStrip t.summary = "" ∧
      ∀ c ∈ getCalleeRows s t.function_id, pyStrip c.summary ≠ ""

theorem walkW_target_sound (s : Store)
    (f : Nat → List Nat → Option FunctionRow × Bool × List Nat)
    (P : ∀ c v, TargetSound s (f c v)) :
    ∀ cs v, TargetSound s (walkW f cs v) := by
  intro cs
  induction cs with
  | nil =>
    intro v t ht
    simp [walkW] at ht
  | cons c rest ih =>
    intro v t ht
    rw [walkW] at ht
    rcases hf : f c v with ⟨t0, d0, v0⟩
    rw [hf] at ht
    cases t0 with
    | some t1 =>
      have hft : t1 = t := by simpa using ht
      subst hft
      exact P c v t1 (by rw [hf])
    | none =>
      have ht1 : (match walkW f rest v0 with
          | (t2, d2, v2) => ((t2 : Option FunctionRow), d0 && d2, v2)).1 = some t := ht
      rcases hwrest : walkW f rest v0 with ⟨t2, d2, v2⟩
      rw [hwrest] at ht1
      have h2 : t2 = some t := by simpa using ht1
      exact ih v0 t (by rw [hwrest, h2])

theorem walkW_all_done (f : Nat → List Nat → Option FunctionRow × Bool × List Nat) :
    ∀ cs v0 vf, walkW f cs v0 = (none, true, vf) →
      ∀ c ∈ cs, ∃ v1 v2, f c v1 = (none, true, v2) := by
  intro cs
  induction cs with
  | nil =>
    intro v0 vf h c hc
    cases hc
  | cons c0 rest ih =>
    intro v0 vf h c hc
    rw [walkW] at h
    rcases hf : f c0 v0 with ⟨t0, d0, v1⟩
    rw [hf] at h
    cases t0 with
    | some t =>
      simp at h
    | none =>
      have h1 : (match walkW f rest v1 with
          | (t2, d2, v2) => ((t2 : Option FunctionRow), d0 && d2, v2)) = (none, true, vf) := h
      rcases hwrest : walkW f rest v1 with ⟨t2, d2, v2⟩
      rw [hwrest] at h1
      simp at h1
      obtain ⟨ht2, hd, hv⟩ := h1
      rcases List.mem_cons.mp hc with rfl | hc2
      · exact ⟨v0, v1, by rw [hf, hd.1]⟩
      · exact ih v1 v2 (by rw [hwrest, ht2, hd.2, hv]) c hc2

theorem findNext_target_sound (s : Store) (hn : idsNodup s) :
    ∀ fuel entry visited, TargetSound s (findNext s fuel entry visited) := by
  intro fuel
  induction fuel with
  | zero =>
    intro entry visited t ht
    rw [findNext] at ht
    cases ht
  | succ n ih =>
    intro entry visited t ht
    rw [findNext] at ht
    by_cases hv : entry ∈ visited
    · rw [if_pos hv] at ht
      cases hrow : getFunctionRow s entry with
      | none =>
        rw [hrow] at ht
        simp at ht
      | some f =>
        rw [hrow] at ht
        by_cases hs : (pyStrip f.summary != "") = true
        · simp [hs] at ht
        · simp [hs] at ht
    · rw [if_neg hv] at ht
      cases hrow : getFunctionRow s entry with
      | none =>
        rw [hrow] at ht
        simp at ht
      | some f =>
        rw [hrow] at ht
        rcases hw : walkW (findNext s n)
            ((getCalleeRows s entry).map (fun c => c.function_id)) (entry :: visited)
          with ⟨t0, d0, v0⟩
        rw [hw] at ht
        cases t0 with
        | some t1 =>
          have hft : t1 = t := by simpa using ht
          subst hft
          exact walkW_target_sound s (findNext s n) (fun c v => ih c v) _ _ t1 (by rw [hw])
        | none =>
          by_cases hs : (pyStrip f.summary != "") = true
          · simp [hs] at ht
          · by_cases hd : d0 = true
            · subst hd
              have hft : f = t := by simpa [hs] using ht
              subst hft
              have hmem := getFunctionRow_mem s entry f hrow
              refine ⟨hmem.1, by simpa using hs, ?_⟩
              intro c hc
              rw [hmem.2] at hc
              have hcid : c.function_id ∈
                  (getCalleeRows s entry).map (fun c => c.function_id) :=
                List.mem_map_of_mem _ hc
              rcases walkW_all_done (findNext s n) _ _ _ (by rw [hw]) _ hcid
                with ⟨v1, v2, hcall⟩
              rcases findNext_done_sound s n _ _ _ hcall with hnone | ⟨r, hr, hrs⟩
              · rw [getCalleeRows_self_lookup s entry c hc] at hnone
                cases hnone
              · rw [getCalleeRows_self_lookup s entry c hc] at hr
                cases hr
                exact hrs
            · simp [hs, hd] at ht

theorem goRoots_sound (s : Store) (hn : idsNodup s) (fuel : Nat) :
    ∀ roots visited t, goRoots s fuel roots visited = some t →
      t ∈ s.functions ∧ pyStrip t.summary = "" ∧
        ∀ c ∈ getCalleeRows s t.function_id, pyStrip c.summary ≠ "" := by
  intro roots
  induction roots with
  | nil =>
    intro visited t h
    cases h
  | cons r rest ih =>
    intro visited t h
    rw [goRoots] at h
    rcases hf : findNext s fuel r visited with ⟨t0, d0, v0⟩
    rw [hf] at h
    cases t0 with
    | some t1 =>
      have h2 : t1 = t := Option.some.inj h
      subst h2
      exact findNext_target_sound s hn fuel r visited t1 (by rw [hf])
    | none =>
      have h2 : goRoots s fuel rest v0 = some t := h
      exact ih v0 t h2

/-- An id no functions row carries is not found by the row lookup. -/
theorem getFunctionRow_eq_none (s : Store) (fid : Nat) (h : isKnown s fid = false) :
    getFunctionRow s fid = none := by
  rw [getFunctionRow, List.find?_eq_none]
  intro g hg hbeq
  have : s.functions.any (fun f => f.function_id == fid) = true :=
    List.any_eq_true.mpr ⟨g, hg, hbeq⟩
  rw [isKnown] at h
  rw [h] at this
  cases this

theorem getNextTarget_sound (s : Store) (hn : idsNodup s) (t : FunctionRow)
    (h : getNextTarget s = .needsSummary t) :
    t ∈ s.functions ∧ pyStrip t.summary = "" ∧
      ∀ c ∈ getCalleeRows s t.function_id, pyStrip c.summary ≠ "" := by
  rw [getNextTarget] at h
  by_cases he : (distinctFirst (s.functions.map (fun f => f.function_id))).isEmpty = true
  · rw [if_pos he] at h
    cases h
  · rw [if_neg he] at h
    rcases hg : goRoots s (s.functions.length + 1)
        (distinctFirst (s.functions.map (fun f => f.function_id))) [] with t0 | t0
    · rw [hg] at h
      cases h
    · rw [hg] at h
      cases h
      exact goRoots_sound s hn _ _ _ _ hg

/-- The distinct-id list of a non-empty table is non-empty. -/
theorem distinctFirst_isEmpty_eq_false (xs : List Nat) (h : xs ≠ []) :
    (distinctFirst xs).isEmpty = false := by
  rcases hx : xs with _ | ⟨x, rest⟩
  · exact absurd hx h
  · rw [distinctFirst]
    have hgrow : ∀ (ys : List Nat) (acc : List Nat), acc.length ≤
        (List.foldl (fun acc x => if x ∈ acc then acc else acc ++ [x]) acc ys).length := by
      intro ys
      induction ys with
      | nil => intro acc; exact Nat.le_refl _
      | cons y ys ih =>
        intro acc
        rw [List.foldl_cons]
        refine Nat.le_trans ?_ (ih _)
        by_cases hy : y ∈ acc
        · rw [if_pos hy]
        · rw [if_neg hy]
          simp
    have hstep : List.foldl (fun acc x => if x ∈ acc then acc else acc ++ [x]) [] (x :: rest)
        = List.foldl (fun acc x => if x ∈ acc then acc else acc ++ [x]) [x] rest := by
      rw [List.foldl_cons]
      rfl
    have h1 : 1 ≤ (List.foldl
        (fun acc x => if x ∈ acc then acc else acc ++ [x]) [x] rest).length := by
      have := hgrow rest [x]
      simpa using this
    rw [hstep]
    cases hfx : List.foldl (fun acc x => if x ∈ acc then acc else acc ++ [x]) [x] rest with
    | nil =>
      rw [hfx] at h1
      cases h1
    | cons a as => rfl

/-- A target that is known, strip-unannotated and has all known callees
strip-annotated is unannotated and ready in the batch sense, provided ids are
unique and no summary is whitespace-only. -/
theorem target_ready (s : Store) (hn : idsNodup s)
    (hw : ∀ f ∈ s.functions, f.summary = "" ∨ pyStrip f.summary ≠ "")
    (t : FunctionRow) (hmem : t ∈ s.functions) (hstrip : pyStrip t.summary = "")
    (hcall : ∀ c ∈ getCalleeRows s t.function_id, pyStrip c.summary ≠ "") :
    t.summary = "" ∧ readyRow s t = true := by
  have hsum : t.summary = "" := by
    rcases hw t hmem with h0 | h0
    · exact h0
    · exact absurd hstrip h0
  refine ⟨hsum, ?_⟩
  rw [readyRow]
  have hhas : hasUnannotatedCallee s t.function_id = false := by
    by_contra hh
    have hh2 : hasUnannotatedCallee s t.function_id = true := by
      cases hx : hasUnannotatedCallee s t.function_id
      · exact absurd hx hh
      · rfl
    rw [hasUnannotatedCallee] at hh2
    rcases List.any_eq_true.mp hh2 with ⟨e, he, hconj⟩
    rcases Bool.and_eq_true_iff.mp hconj with ⟨he1, hany⟩
    rcases List.any_eq_true.mp hany with ⟨c, hcmem, hc2⟩
    rcases Bool.and_eq_true_iff.mp hc2 with ⟨hcid, hcsum⟩
    have hcid2 : c.function_id = e.2 := by simpa using hcid
    have hcsum2 : c.summary = "" := by simpa using hcsum
    have hrowc : getFunctionRow s e.2 = some c := by
      have := getFunctionRow_of_mem s hn c hcmem
      rw [hcid2] at this
      exact this
    have hcrow : c ∈ getCalleeRows s t.function_id := by
      rw [getCalleeRows]
      exact List.mem_filterMap.mpr ⟨e, List.mem_filter.mpr ⟨he, he1⟩, hrowc⟩
    have := hcall c hcrow
    rw [hcsum2] at this
    exact this rfl
  rw [hhas, hsum]
  rfl

/-- C6: an edge whose callee id matches no known function never blocks
readiness.  In batch mode such edges contribute nothing to the blocking
subquery, so an unannotated function all of whose callees are unknown is
ready; in single-target mode the traversal sees no callee rows for it and
nominates it at once. -/
theorem c6_unknown_callees_satisfied (s : Store) (hn : idsNodup s) (f : FunctionRow)
    (hf : f ∈ s.functions)
    (hunk : ∀ e ∈ s.call_edges, e.1 = f.function_id → isKnown s e.2 = false) :
    getCalleeRows s f.function_id = []
    ∧ (f.summary = "" → readyRow s f = true)
    ∧ (∀ fuel visited, pyStrip f.summary = "" → f.function_id ∉ visited →
        (findNext s (fuel + 1) f.function_id visited).1 = some f) := by
  have hcr : getCalleeRows s f.function_id = [] := by
    rw [getCalleeRows, List.filterMap_eq_nil_iff]
    intro e he
    have hmem := List.mem_filter.mp he
    have he1 : e.1 = f.function_id := by simpa using hmem.2
    exact getFunctionRow_eq_none s e.2 (hunk e hmem.1 he1)
  have hready : f.summary = "" → readyRow s f = true := by
    intro hsum
    rw [readyRow]
    have hhas : hasUnannotatedCallee s f.function_id = false := by
      by_contra hh
      have hh2 : hasUnannotatedCallee s f.function_id = true := by
        cases hx : hasUnannotatedCallee s f.function_id
        · exact absurd hx hh
        · rfl
      rw [hasUnannotatedCallee] at hh2
      rcases List.any_eq_true.mp hh2 with ⟨e, he, hconj⟩
      rcases Bool.and_eq_true_iff.mp hconj with ⟨he1, hany⟩
      rcases List.any_eq_true.mp hany with ⟨c, hcmem, hc2⟩
      rcases Bool.and_eq_true_iff.mp hc2 with ⟨hcid, -⟩
      have : isKnown s e.2 = true :=
        List.any_eq_true.mpr ⟨c, hcmem, hcid⟩
      rw [hunk e he (by simpa using he1)] at this
      cases this
    rw [hhas, hsum]
    rfl
  refine ⟨hcr, hready, ?_⟩
  intro fuel visited hstrip hnv
  rw [findNext, if_neg hnv, getFunctionRow_of_mem s hn f hf]
  simp [hcr, walkW, hstrip]

/-- Witness for C6 at a store whose single function calls only the unknown
id 99: both modes treat it as ready. -/
theorem c6_witness :
    idsNodup sUnk
    ∧ (∀ e ∈ sUnk.call_edges, e.1 = (rowU).function_id → isKnown sUnk e.2 = false)
    ∧ readyRow sUnk rowU = true
    ∧ (findNext sUnk 2 rowU.function_id []).1 = some rowU
    ∧ getNextBatch sUnk 50 = .okBatch [rowU] 1
    ∧ getNextTarget sUnk = .needsSummary rowU :=
  ⟨by decide, by decide,
    (c6_unknown_callees_satisfied sUnk (by decide) rowU (by decide) (by decide)).2.1 rfl,
    (c6_unknown_callees_satisfied sUnk (by decide) rowU (by decide) (by decide)).2.2 1 [] rfl
      (by decide),
    by decide, by decide⟩

/-- C2 amended: the two modes decide `unannotated` differently — batch mode
compares the summary to the empty string exactly while single-target mode
strips whitespace first — so they are consistent only on stores with no
whitespace-only summary (the hypothesis `hw`), and even there only
one-sidedly: a target returned by single-target mode is unannotated and
satisfies the batch readiness predicate; when nothing is unannotated, batch
mode answers complete for every limit and single-target mode answers complete
whenever the store is non-empty; but when unannotated functions remain and
none is ready, batch mode answers blocked while single-target mode still
answers complete rather than a distinct non-complete empty result.  On a
store whose only summary is whitespace the modes disagree outright: batch
mode answers complete while single-target mode returns that function as a
target (final conjunct, at the concrete store `sWs`). -/
theorem c2_amended_mode_agreement (s : Store) (hn : idsNodup s)
    (hw : ∀ f ∈ s.functions, f.summary = "" ∨ pyStrip f.summary ≠ "") :
    (∀ f, getNextTarget s = .needsSummary f →
        f ∈ s.functions ∧ f.summary = "" ∧ readyRow s f = true)
    ∧ ((∀ f ∈ s.functions, f.summary ≠ "") →
        (∀ k, getNextBatch s k = .complete)
        ∧ (s.functions ≠ [] → getNextTarget s = .complete))
    ∧ ((∃ f ∈ s.functions, f.summary = "") → (∀ f ∈ s.functions, readyRow s f = false) →
        (∀ k, getNextBatch s k = .blocked (unannotatedCount s))
        ∧ unannotatedCount s ≠ 0
        ∧ getNextTarget s = .complete)
    ∧ (getNextBatch sWs 50 = .complete ∧ getNextTarget sWs = .needsSummary rowW
        ∧ pyStrip rowW.summary = "" ∧ rowW.summary ≠ "") := by
  have hpart1 : ∀ f, getNextTarget s = .needsSummary f →
      f ∈ s.functions ∧ f.summary = "" ∧ readyRow s f = true := by
    intro f hf
    obtain ⟨hmem, hstrip, hcall⟩ := getNextTarget_sound s hn f hf
    obtain ⟨hsum, hready⟩ := target_ready s hn hw f hmem hstrip hcall
    exact ⟨hmem, hsum, hready⟩
  refine ⟨hpart1, ?_, ?_, by decide, by decide, rfl, by decide⟩
  · intro hall
    constructor
    · intro k
      have hfe : s.functions.filter (fun f => readyRow s f) = [] := by
        rw [List.filter_eq_nil_iff]
        intro f hfm hready
        have : f.summary = "" := by
          have := (Bool.and_eq_true_iff.mp hready).1
          simpa using this
        exact hall f hfm this
      have hcount : unannotatedCount s = 0 := by
        rw [unannotatedCount, List.length_eq_zero, List.filter_eq_nil_iff]
        intro f hfm hsum
        exact hall f hfm (by simpa using hsum)
      rw [getNextBatch, hfe, List.take_nil]
      simp [hcount]
    · intro hne
      rw [getNextTarget]
      have hie : (distinctFirst (s.functions.map (fun f => f.function_id))).isEmpty = false := by
        refine distinctFirst_isEmpty_eq_false _ (fun hh => hne ?_)
        exact List.map_eq_nil_iff.mp hh
      rw [if_neg (by simp [hie])]
      cases hg : goRoots s (s.functions.length + 1)
          (distinctFirst (s.functions.map (fun f => f.function_id))) [] with
      | none => rfl
      | some t =>
        obtain ⟨hmem, hstrip, -⟩ := goRoots_sound s hn _ _ _ _ hg
        rcases hw t hmem with h0 | h0
        · exact absurd h0 (hall t hmem)
        · exact absurd hstrip h0
  · intro hex hnr
    have hfe : s.functions.filter (fun f => readyRow s f) = [] := by
      rw [List.filter_eq_nil_iff]
      intro f hfm hready
      rw [hnr f hfm] at hready
      cases hready
    obtain ⟨f0, hf0, hf0s⟩ := hex
    have hcount : unannotatedCount s ≠ 0 := by
      rw [unannotatedCount]
      intro hh
      rw [List.length_eq_zero, List.filter_eq_nil_iff] at hh
      exact hh f0 hf0 (by simp [hf0s])
    refine ⟨?_, hcount, ?_⟩
    · intro k
      rw [getNextBatch, hfe, List.take_nil]
      simp [hcount]
    · rw [getNextTarget]
      have hne : s.functions ≠ [] := List.ne_nil_of_mem hf0
      have hie : (distinctFirst (s.functions.map (fun f => f.function_id))).isEmpty = false := by
        refine distinctFirst_isEmpty_eq_false _ (fun hh => hne ?_)
        exact List.map_eq_nil_iff.mp hh
      rw [if_neg (by simp [hie])]
      cases hg : goRoots s (s.functions.length + 1)
          (distinctFirst (s.functions.map (fun f => f.function_id))) [] with
      | none => rfl
      | some t =>
        obtain ⟨hmem, hstrip, hcall⟩ := goRoots_sound s hn _ _ _ _ hg
        obtain ⟨-, hready⟩ := target_ready s hn hw t hmem hstrip hcall
        rw [hnr t hmem] at hready
        cases hready

/-! Generic list lemmas used by the driving-loop proof. -/

theorem exists_min_measure (l : List FunctionRow) (h : l ≠ []) (m : FunctionRow → Nat) :
    ∃ f ∈ l, ∀ g ∈ l, m f ≤ m g := by
  induction l with
  | nil => exact absurd rfl h
  | cons f rest ih =>
    by_cases hrn : rest = []
    · subst hrn
      refine ⟨f, List.mem_cons_self _ _, ?_⟩
      intro g hg
      rcases List.mem_cons.mp hg with rfl | hg2
      · exact Nat.le_refl _
      · cases hg2
    · obtain ⟨g0, hg0, hmin⟩ := ih hrn
      by_cases hle : m f ≤ m g0
      · refine ⟨f, List.mem_cons_self _ _, ?_⟩
        intro g hg
        rcases List.mem_cons.mp hg with rfl | hg2
        · exact Nat.le_refl _
        · exact Nat.le_trans hle (hmin g hg2)
      · refine ⟨g0, List.mem_cons_of_mem _ hg0, ?_⟩
        intro g hg
        rcases List.mem_cons.mp hg with rfl | hg2
        · exact Nat.le_of_lt (Nat.lt_of_not_le hle)
        · exact hmin g hg2

theorem countP_lt_of_witness (l : List FunctionRow) (p q : FunctionRow → Bool)
    (hmono : ∀ a ∈ l, p a = true → q a = true) (a0 : FunctionRow) (ha0 : a0 ∈ l)
    (hq : q a0 = true) (hp : p a0 = false) : l.countP p < l.countP q := by
  induction l with
  | nil => cases ha0
  | cons b rest ih =>
    rw [List.countP_cons, List.countP_cons]
    rcases List.mem_cons.mp ha0 with rfl | hmem
    · rw [hp, hq]
      simp only [if_pos, Bool.false_eq_true, if_neg, not_false_iff]
      have hle : rest.countP p ≤ rest.countP q :=
        List.countP_mono_left (fun x hx => hmono x (List.mem_cons_of_mem _ hx))
      omega
    · have hlt : rest.countP p < rest.countP q :=
        ih (fun x hx => hmono x (List.mem_cons_of_mem _ hx)) hmem
      have hstep : (if p b = true then 1 else 0) ≤ (if q b = true then 1 else 0) := by
        by_cases hb : p b = true
        · rw [if_pos hb, if_pos (hmono b (List.mem_cons_self _ _) hb)]
        · rw [if_neg hb]
          omega
      omega

theorem take_ne_nil_of_pos (l : List FunctionRow) (k : Nat) (hl : l ≠ []) (hk : 1 ≤ k) :
    l.take k ≠ [] := by
  cases l with
  | nil => exact absurd rfl hl
  | cons a as =>
    cases k with
    | zero => cases hk
    | succ n =>
      rw [List.take_succ_cons]
      exact List.cons_ne_nil _ _

theorem mem_flatten_exists_getD (bs : List (List Nat)) (a : Nat) (h : a ∈ bs.flatten) :
    ∃ j, a ∈ bs.getD j [] := by
  rcases List.mem_flatten.mp h with ⟨l, hl, hal⟩
  rcases List.mem_iff_get.mp hl with ⟨n, hn⟩
  refine ⟨n.val, ?_⟩
  have : bs.getD n.val [] = l := by
    rw [List.getD_eq_getElem?_getD, List.getElem?_eq_getElem n.isLt]
    simpa using congrArg some hn
  rw [this]
  exact hal

/-! Characterization of the commit step as a pointwise rewrite of the rows. -/

theorem saveResult_functions (s : Store) (r : ProcResult) :
    (saveResult s r).functions =
      if r.status_ok then
        s.functions.map (fun f =>
          if f.function_id == r.function_id then { f with summary := r.summary } else f)
      else s.functions := by
  rw [saveResult]
  by_cases h : r.status_ok = true
  · rw [if_pos h, if_pos h]
  · rw [if_neg h, if_neg h]

theorem updAll_cons (r : ProcResult) (rest : List ProcResult) (g : FunctionRow) :
    updAll (r :: rest) g = updAll rest
      (if r.status_ok && (g.function_id == r.function_id) then
        { g with summary := r.summary } else g) := by
  rw [updAll, updAll, List.foldl_cons]

theorem saveResultsToDb_functions (rs : List ProcResult) :
    ∀ s : Store, (saveResultsToDb s rs).functions = s.functions.map (updAll rs) := by
  induction rs with
  | nil =>
    intro s
    have : ∀ g ∈ s.functions, updAll [] g = g := fun g _ => rfl
    rw [saveResultsToDb, List.foldl_nil]
    conv_lhs => rw [(List.map_id s.functions).symm]
    exact (List.map_congr_left this).symm
  | cons r rest ih =>
    intro s
    have hstep : saveResultsToDb s (r :: rest) = saveResultsToDb (saveResult s r) rest := by
      rw [saveResultsToDb, saveResultsToDb, List.foldl_cons]
    rw [hstep, ih (saveResult s r), saveResult_functions]
    by_cases h : r.status_ok = true
    · rw [if_pos h, List.map_map]
      apply List.map_congr_left
      intro g hg
      show updAll rest (if g.function_id == r.function_id then
        { g with summary := r.summary } else g) = updAll (r :: rest) g
      rw [updAll_cons]
      have : (if r.status_ok && (g.function_id == r.function_id) then
          { g with summary := r.summary } else g)
          = (if g.function_id == r.function_id then { g with summary := r.summary } else g) := by
        rw [h]
        simp
      rw [this]
    · rw [if_neg h]
      apply List.map_congr_left
      intro g hg
      show updAll rest g = updAll (r :: rest) g
      rw [updAll_cons]
      have : (if r.status_ok && (g.function_id == r.function_id) then
          { g with summary := r.summary } else g) = g := by
        have hb : r.status_ok = false := by
          cases hx : r.status_ok
          · rfl
          · exact absurd hx h
        rw [hb]
        simp
      rw [this]

theorem saveResultsToDb_call_edges (rs : List ProcResult) :
    ∀ s : Store, (saveResultsToDb s rs).call_edges = s.call_edges := by
  induction rs with
  | nil => intro s; rfl
  | cons r rest ih =>
    intro s
    have hstep : saveResultsToDb s (r :: rest) = saveResultsToDb (saveResult s r) rest := by
      rw [saveResultsToDb, saveResultsToDb, List.foldl_cons]
    rw [hstep, ih]
    rw [saveResult]
    by_cases h : r.status_ok = true
    · rw [if_pos h]
    · rw [if_neg h]

/-! Pointwise facts about the composite summary rewrite. -/

theorem updAll_preserves_id (rs : List ProcResult) :
    ∀ g : FunctionRow, (updAll rs g).function_id = g.function_id
      ∧ (updAll rs g).name = g.name ∧ (updAll rs g).file = g.file := by
  induction rs with
  | nil => intro g; exact ⟨rfl, rfl, rfl⟩
  | cons r rest ih =>
    intro g
    rw [updAll_cons]
    by_cases h : (r.status_ok && (g.function_id == r.function_id)) = true
    · rw [if_pos h]
      exact ih { g with summary := r.summary }
    · rw [if_neg h]
      exact ih g

theorem updAll_keeps_nonempty (rs : List ProcResult)
    (hne : ∀ r ∈ rs, r.status_ok = true → r.summary ≠ "") :
    ∀ g : FunctionRow, g.summary ≠ "" → (updAll rs g).summary ≠ "" := by
  induction rs with
  | nil => intro g hg; exact hg
  | cons r rest ih =>
    intro g hg
    rw [updAll_cons]
    have hrest : ∀ r ∈ rest, r.status_ok = true → r.summary ≠ "" :=
      fun x hx => hne x (List.mem_cons_of_mem _ hx)
    by_cases h : (r.status_ok && (g.function_id == r.function_id)) = true
    · rw [if_pos h]
      have hok : r.status_ok = true := (Bool.and_eq_true_iff.mp h).1
      exact ih hrest { g with summary := r.summary } (hne r (List.mem_cons_self _ _) hok)
    · rw [if_neg h]
      exact ih hrest g hg

theorem updAll_untouched (rs : List ProcResult) :
    ∀ g : FunctionRow, (∀ r ∈ rs, r.status_ok = true → r.function_id ≠ g.function_id) →
      updAll rs g = g := by
  induction rs with
  | nil => intro g h; rfl
  | cons r rest ih =>
    intro g h
    rw [updAll_cons]
    have hcond : (r.status_ok && (g.function_id == r.function_id)) = false := by
      by_cases hok : r.status_ok = true
      · have := h r (List.mem_cons_self _ _) hok
        rw [hok]
        simp [Ne.symm this]
      · have hb : r.status_ok = false := by
          cases hx : r.status_ok
          · rfl
          · exact absurd hx hok
        rw [hb]
        simp
    rw [hcond]
    simp only [Bool.false_eq_true, if_neg, not_false_iff]
    exact ih g (fun x hx => h x (List.mem_cons_of_mem _ hx))

theorem updAll_touched_nonempty (rs : List ProcResult)
    (hne : ∀ r ∈ rs, r.status_ok = true → r.summary ≠ "") :
    ∀ g : FunctionRow, (∃ r ∈ rs, r.status_ok = true ∧ r.function_id = g.function_id) →
      (updAll rs g).summary ≠ "" := by
  induction rs with
  | nil =>
    intro g h
    rcases h with ⟨r, hr, -⟩
    cases hr
  | cons r rest ih =>
    intro g h
    rw [updAll_cons]
    have hrest : ∀ x ∈ rest, x.status_ok = true → x.summary ≠ "" :=
      fun x hx => hne x (List.mem_cons_of_mem _ hx)
    by_cases hcond : (r.status_ok && (g.function_id == r.function_id)) = true
    · rw [if_pos hcond]
      have hok : r.status_ok = true := (Bool.and_eq_true_iff.mp hcond).1
      exact updAll_keeps_nonempty rest hrest { g with summary := r.summary }
        (hne r (List.mem_cons_self _ _) hok)
    · rw [if_neg hcond]
      rcases h with ⟨r0, hr0, hok0, hid0⟩
      rcases List.mem_cons.mp hr0 with rfl | hr0m
      · exfalso
        apply hcond
        rw [hok0]
        simp [hid0.symm]
      · exact ih hrest g ⟨r0, hr0m, hok0, hid0⟩

/-! Facts about one ok iteration of the driving loop. -/

theorem rows_eq_of_same_id (s : Store) (hn : idsNodup s) (f g : FunctionRow)
    (hf : f ∈ s.functions) (hg : g ∈ s.functions) (h : f.function_id = g.function_id) :
    f = g := by
  have h1 := getFunctionRow_of_mem s hn f hf
  have h2 := getFunctionRow_of_mem s hn g hg
  rw [h] at h1
  rw [h1] at h2
  exact Option.some.inj h2

theorem exists_ready_of_acyclic (s : Store) (hn : idsNodup s) (ha : Acyclic s)
    (hex : ∃ f ∈ s.functions, f.summary = "") :
    ∃ f ∈ s.functions, readyRow s f = true := by
  obtain ⟨rank, hrank⟩ := ha
  obtain ⟨f0, hf0m, hf0s⟩ := hex
  have hUne : s.functions.filter (fun f => f.summary == "") ≠ [] :=
    List.ne_nil_of_mem (List.mem_filter.mpr ⟨hf0m, by simp [hf0s]⟩)
  obtain ⟨fm, hfmU, hmin⟩ := exists_min_measure _ hUne (fun f => rank f.function_id)
  have hfm := List.mem_filter.mp hfmU
  refine ⟨fm, hfm.1, ?_⟩
  rw [readyRow]
  have hsum : fm.summary = "" := by simpa using hfm.2
  have hhas : hasUnannotatedCallee s fm.function_id = false := by
    by_contra hh
    have hh2 : hasUnannotatedCallee s fm.function_id = true := by
      cases hx : hasUnannotatedCallee s fm.function_id
      · exact absurd hx hh
      · rfl
    rw [hasUnannotatedCallee] at hh2
    rcases List.any_eq_true.mp hh2 with ⟨e, he, hconj⟩
    rcases Bool.and_eq_true_iff.mp hconj with ⟨he1, hany⟩
    rcases List.any_eq_true.mp hany with ⟨c, hcmem, hc2⟩
    rcases Bool.and_eq_true_iff.mp hc2 with ⟨hcid, hcsum⟩
    have he1e : e.1 = fm.function_id := by simpa using he1
    have hcide : c.function_id = e.2 := by simpa using hcid
    have hcsume : c.summary = "" := by simpa using hcsum
    have hcU : c ∈ s.functions.filter (fun f => f.summary == "") :=
      List.mem_filter.mpr ⟨hcmem, by simp [hcsume]⟩
    have hk1 : isKnown s e.1 = true :=
      List.any_eq_true.mpr ⟨fm, hfm.1, by simp [he1e.symm]⟩
    have hk2 : isKnown s e.2 = true :=
      List.any_eq_true.mpr ⟨c, hcmem, by simp [hcide]⟩
    have hlt : rank e.2 < rank e.1 := hrank e he hk1 hk2
    have hge : rank fm.function_id ≤ rank c.function_id := hmin c hcU
    rw [he1e] at hlt
    rw [hcide] at hge
    omega
  rw [hhas, hsum]
  rfl

theorem getNextBatch_complete_of_annotated (s : Store) (k : Nat)
    (hall : ∀ f ∈ s.functions, f.summary ≠ "") : getNextBatch s k = .complete := by
  have hfe : s.functions.filter (fun f => readyRow s f) = [] := by
    rw [List.filter_eq_nil_iff]
    intro f hfm hready
    have hsum : f.summary = "" := by
      have := (Bool.and_eq_true_iff.mp hready).1
      simpa using this
    exact hall f hfm hsum
  have hcount : unannotatedCount s = 0 := by
    rw [unannotatedCount, List.length_eq_zero, List.filter_eq_nil_iff]
    intro f hfm hsum
    exact hall f hfm (by simpa using hsum)
  rw [getNextBatch, hfe, List.take_nil]
  simp [hcount]

theorem getNextBatch_ok_of_ready (s : Store) (k : Nat) (hk : 1 ≤ k)
    (hready : ∃ f ∈ s.functions, readyRow s f = true) :
    getNextBatch s k = .okBatch ((s.functions.filter (fun f => readyRow s f)).take k)
      (unannotatedCount s) := by
  obtain ⟨f, hf, hr⟩ := hready
  have hne : s.functions.filter (fun f => readyRow s f) ≠ [] :=
    List.ne_nil_of_mem (List.mem_filter.mpr ⟨hf, hr⟩)
  have htk : (s.functions.filter (fun f => readyRow s f)).take k ≠ [] :=
    take_ne_nil_of_pos _ k hne hk
  rw [getNextBatch, if_neg (by simpa [List.isEmpty_iff] using htk)]

theorem processSingleFunction_fid (s : Store) (o : OracleOutcome) (a : AnnResp)
    (fid : Nat) (name : String) :
    (processSingleFunction s o a fid name).function_id = fid := by
  rw [processSingleFunction]
  cases getFunctionContext s fid <;> rfl

theorem ready_callee_annotated (s : Store) (f : FunctionRow) (hready : readyRow s f = true)
    (e : Nat × Nat) (he : e ∈ s.call_edges) (he1 : e.1 = f.function_id)
    (hk : isKnown s e.2 = true) : annotatedB s e.2 = true := by
  rcases List.any_eq_true.mp hk with ⟨c, hcm, hcid⟩
  have hcide : c.function_id = e.2 := by simpa using hcid
  by_cases hcs : c.summary = ""
  · exfalso
    have hhas : hasUnannotatedCallee s f.function_id = true := by
      rw [hasUnannotatedCallee]
      refine List.any_eq_true.mpr ⟨e, he, ?_⟩
      rw [Bool.and_eq_true_iff]
      exact ⟨by simp [he1], List.any_eq_true.mpr ⟨c, hcm, by simp [hcide, hcs]⟩⟩
    rw [readyRow] at hready
    rcases Bool.and_eq_true_iff.mp hready with ⟨-, hnot⟩
    rw [hhas] at hnot
    cases hnot
  · rw [annotatedB]
    exact List.any_eq_true.mpr ⟨c, hcm, by simp [hcide, hcs]⟩

theorem procResults_facts (s : Store) (hn : idsNodup s) (oS : Nat → OracleOutcome)
    (oA : Nat → AnnResp) (b : List FunctionRow)
    (hb : ∀ f ∈ b, f ∈ s.functions ∧ f.summary = "") :
    (∀ r ∈ processBatch s oS oA b, r.status_ok = true ∧ r.summary ≠ ""
        ∧ r.function_id ∈ b.map (fun f => f.function_id))
    ∧ (∀ f ∈ b, ∃ r ∈ processBatch s oS oA b, r.status_ok = true
        ∧ r.function_id = f.function_id) := by
  have hone : ∀ f ∈ b,
      (processSingleFunction s (oS f.function_id) (oA f.function_id)
        f.function_id f.name).status_ok = true
      ∧ (processSingleFunction s (oS f.function_id) (oA f.function_id)
        f.function_id f.name).summary ≠ "" := by
    intro f hf
    have hrow := getFunctionRow_of_mem s hn f (hb f hf).1
    have hstrip : pyStrip f.summary = "" := by
      rw [(hb f hf).2]
      rfl
    exact processSingleFunction_summary_ne s f hrow hstrip _ _
  constructor
  · intro r hr
    rcases List.mem_map.mp hr with ⟨f, hf, hreq⟩
    subst hreq
    refine ⟨(hone f hf).1, (hone f hf).2, ?_⟩
    rw [processSingleFunction_fid]
    exact List.mem_map_of_mem _ hf
  · intro f hf
    exact ⟨processSingleFunction s (oS f.function_id) (oA f.function_id) f.function_id f.name,
      List.mem_map_of_mem _ hf, (hone f hf).1, processSingleFunction_fid _ _ _ _ _⟩

theorem step_preserves_ids (s : Store) (rs : List ProcResult) :
    (saveResultsToDb s rs).functions.map (fun f => f.function_id)
      = s.functions.map (fun f => f.function_id) := by
  rw [saveResultsToDb_functions, List.map_map]
  apply List.map_congr_left
  intro g hg
  exact (updAll_preserves_id rs g).1

theorem isKnown_save (s : Store) (rs : List ProcResult) (fid : Nat) :
    isKnown (saveResultsToDb s rs) fid = isKnown s fid := by
  have h1 : ∀ l : List FunctionRow, l.any (fun f => f.function_id == fid)
      = (l.map (fun f => f.function_id)).any (fun i => i == fid) := by
    intro l
    induction l with
    | nil => rfl
    | cons a as ih => simp [List.any_cons, ih]
  rw [isKnown, isKnown, h1, h1, step_preserves_ids]

theorem idsNodup_save (s : Store) (rs : List ProcResult) (hn : idsNodup s) :
    idsNodup (saveResultsToDb s rs) := by
  rw [idsNodup, step_preserves_ids]
  exact hn

theorem acyclic_save (s : Store) (rs : List ProcResult) (ha : Acyclic s) :
    Acyclic (saveResultsToDb s rs) := by
  obtain ⟨rank, hr⟩ := ha
  refine ⟨rank, ?_⟩
  intro e he h1 h2
  rw [saveResultsToDb_call_edges] at he
  rw [isKnown_save] at h1 h2
  exact hr e he h1 h2

theorem unannotatedCount_le_length (s : Store) :
    unannotatedCount s ≤ s.functions.length := by
  rw [unannotatedCount]
  exact List.length_filter_le _ _

theorem count_zero_all_annotated (s : Store) (h : unannotatedCount s = 0) :
    ∀ f ∈ s.functions, f.summary ≠ "" := by
  rw [unannotatedCount, List.length_eq_zero, List.filter_eq_nil_iff] at h
  intro f hf hs
  exact h f hf (by simp [hs])

theorem count_pos_exists_unannotated (s : Store) (h : unannotatedCount s ≠ 0) :
    ∃ f ∈ s.functions, f.summary = "" := by
  rw [unannotatedCount] at h
  rcases hx : s.functions.filter (fun f => f.summary == "") with _ | ⟨f, rest⟩
  · rw [hx] at h
    exact absurd rfl h
  · have hf : f ∈ s.functions.filter (fun f => f.summary == "") := by
      rw [hx]
      exact List.mem_cons_self _ _
    have := List.mem_filter.mp hf
    exact ⟨f, this.1, by simpa using this.2⟩

theorem mainStep_facts (s : Store) (hn : idsNodup s) (oS : Nat → OracleOutcome)
    (oA : Nat → AnnResp) (b : List FunctionRow) (s2 : Store)
    (hb1 : ∀ f ∈ b, f ∈ s.functions ∧ readyRow s f = true) (hbne : b ≠ [])
    (hs2 : s2 = saveResultsToDb s
      ((processBatch s oS oA b).filter (fun r => r.status_ok))) :
    idsNodup s2 ∧ s2.call_edges = s.call_edges
    ∧ (∀ fid, isKnown s2 fid = isKnown s fid)
    ∧ unannotatedCount s2 < unannotatedCount s
    ∧ (∀ fid, annotatedB s fid = true → annotatedB s2 fid = true)
    ∧ (∀ fid, annotatedB s2 fid = true →
        annotatedB s fid = true ∨ fid ∈ b.map (fun f => f.function_id))
    ∧ (∀ fid ∈ b.map (fun f => f.function_id), annotatedB s fid = false) := by
  have hbmem : ∀ f ∈ b, f ∈ s.functions ∧ f.summary = "" := by
    intro f hf
    refine ⟨(hb1 f hf).1, ?_⟩
    have := (Bool.and_eq_true_iff.mp (hb1 f hf).2).1
    simpa using this
  have hpf := procResults_facts s hn oS oA b hbmem
  have hrs_fact : ∀ r ∈ (processBatch s oS oA b).filter (fun r => r.status_ok),
      r.status_ok = true ∧ r.summary ≠ ""
        ∧ r.function_id ∈ b.map (fun f => f.function_id) := by
    intro r hr
    exact hpf.1 r (List.mem_of_mem_filter hr)
  have hrs_ne : ∀ r ∈ (processBatch s oS oA b).filter (fun r => r.status_ok),
      r.status_ok = true → r.summary ≠ "" :=
    fun r hr _ => (hrs_fact r hr).2.1
  have hcover : ∀ f ∈ b, ∃ r ∈ (processBatch s oS oA b).filter (fun r => r.status_ok),
      r.status_ok = true ∧ r.function_id = f.function_id := by
    intro f hf
    obtain ⟨r, hr, hok, hid⟩ := hpf.2 f hf
    exact ⟨r, List.mem_filter.mpr ⟨hr, hok⟩, hok, hid⟩
  have hfun : s2.functions = s.functions.map
      (updAll ((processBatch s oS oA b).filter (fun r => r.status_ok))) := by
    rw [hs2, saveResultsToDb_functions]
  refine ⟨by rw [hs2]; exact idsNodup_save s _ hn,
    by rw [hs2]; exact saveResultsToDb_call_edges _ s,
    fun fid => by rw [hs2]; exact isKnown_save s _ fid, ?_, ?_, ?_, ?_⟩
  · -- strict decrease of the unannotated count
    obtain ⟨f0, hf0⟩ := List.exists_mem_of_ne_nil b hbne
    have hq0 : (f0.summary == "") = true := by simp [(hbmem f0 hf0).2]
    have hp0 : ((updAll ((processBatch s oS oA b).filter (fun r => r.status_ok))
        f0).summary == "") = false := by
      have := updAll_touched_nonempty _ hrs_ne f0 (by
        obtain ⟨r, hr, hok, hid⟩ := hcover f0 hf0
        exact ⟨r, hr, hok, hid⟩)
      simp [this]
    have hmono : ∀ g ∈ s.functions,
        ((updAll ((processBatch s oS oA b).filter (fun r => r.status_ok))
          g).summary == "") = true → (g.summary == "") = true := by
      intro g hg hup
      by_contra hgs
      have hgne : g.summary ≠ "" := by
        intro hh
        exact hgs (by simp [hh])
      have := updAll_keeps_nonempty _ hrs_ne g hgne
      rw [show (updAll ((processBatch s oS oA b).filter (fun r => r.status_ok))
          g).summary = "" from by simpa using hup] at this
      exact this rfl
    have hlt := countP_lt_of_witness s.functions
      (fun g => (updAll ((processBatch s oS oA b).filter (fun r => r.status_ok))
        g).summary == "")
      (fun g => g.summary == "") hmono f0 (hbmem f0 hf0).1 hq0 hp0
    have hc2 : unannotatedCount s2 = s.functions.countP
        (fun g => (updAll ((processBatch s oS oA b).filter (fun r => r.status_ok))
          g).summary == "") := by
      rw [unannotatedCount, hfun, <- List.countP_eq_length_filter, List.countP_map]
      rfl
    have hc1 : unannotatedCount s = s.functions.countP (fun g => g.summary == "") := by
      rw [unannotatedCount, <- List.countP_eq_length_filter]
    rw [hc1, hc2]
    exact hlt
  · -- annotatedness is monotone across the commit
    intro fid hfid
    rw [annotatedB] at hfid
    rcases List.any_eq_true.mp hfid with ⟨g, hg, hcond⟩
    rcases Bool.and_eq_true_iff.mp hcond with ⟨hgid, hgsum⟩
    rw [annotatedB, hfun]
    refine List.any_eq_true.mpr ⟨updAll _ g, List.mem_map_of_mem _ hg, ?_⟩
    rw [Bool.and_eq_true_iff]
    constructor
    · rw [(updAll_preserves_id _ g).1]
      exact hgid
    · have hne := updAll_keeps_nonempty _ hrs_ne g (by simpa using hgsum)
      simpa using hne
  · -- a row annotated after the commit was annotated before or is in the batch
    intro fid hfid
    rw [annotatedB, hfun] at hfid
    rcases List.any_eq_true.mp hfid with ⟨g2, hg2, hcond⟩
    rcases List.mem_map.mp hg2 with ⟨g, hg, hgeq⟩
    subst hgeq
    rcases Bool.and_eq_true_iff.mp hcond with ⟨hgid, hgsum⟩
    rw [(updAll_preserves_id _ g).1] at hgid
    by_cases hex : ∃ r ∈ (processBatch s oS oA b).filter (fun r => r.status_ok),
        r.status_ok = true ∧ r.function_id = g.function_id
    · right
      obtain ⟨r, hr, -, hid⟩ := hex
      have := (hrs_fact r hr).2.2
      rw [hid] at this
      have hfg : g.function_id = fid := by simpa using hgid
      rw [hfg] at this
      exact this
    · left
      have huntouched : updAll ((processBatch s oS oA b).filter (fun r => r.status_ok)) g
          = g := by
        apply updAll_untouched
        intro r hr hok hid
        exact hex ⟨r, hr, hok, hid⟩
      rw [huntouched] at hgsum
      rw [annotatedB]
      exact List.any_eq_true.mpr ⟨g, hg, by rw [Bool.and_eq_true_iff]; exact ⟨hgid, hgsum⟩⟩
  · -- batch members are unannotated before the commit
    intro fid hfid
    rcases List.mem_map.mp hfid with ⟨f, hf, hfeq⟩
    subst hfeq
    by_contra hh
    have hh2 : annotatedB s f.function_id = true := by
      cases hx : annotatedB s f.function_id
      · exact absurd hx hh
      · rfl
    rw [annotatedB] at hh2
    rcases List.any_eq_true.mp hh2 with ⟨g, hg, hcond⟩
    rcases Bool.and_eq_true_iff.mp hcond with ⟨hgid, hgsum⟩
    have hge : g = f := rows_eq_of_same_id s hn g f hg (hbmem f hf).1 (by simpa using hgid)
    rw [hge, (hbmem f hf).2] at hgsum
    simp at hgsum

theorem annotatedB_false_of_empty (s : Store)
    (h0 : ∀ f ∈ s.functions, f.summary = "") (fid : Nat) : annotatedB s fid = false := by
  rw [annotatedB]
  cases hx : s.functions.any (fun f => f.function_id == fid && f.summary != "") with
  | false => rfl
  | true =>
    exfalso
    rcases List.any_eq_true.mp hx with ⟨g, hg, hcond⟩
    rcases Bool.and_eq_true_iff.mp hcond with ⟨-, hgs⟩
    rw [h0 g hg] at hgs
    simp at hgs

theorem isKnown_of_ids_eq (s1 s2 : Store)
    (hids : s1.functions.map (fun f => f.function_id)
      = s2.functions.map (fun f => f.function_id)) (fid : Nat) :
    isKnown s1 fid = isKnown s2 fid := by
  have h1 : ∀ l : List FunctionRow, l.any (fun f => f.function_id == fid)
      = (l.map (fun f => f.function_id)).any (fun i => i == fid) := by
    intro l
    induction l with
    | nil => rfl
    | cons a as ih => simp [List.any_cons, ih]
  rw [isKnown, isKnown, h1, h1, hids]

/-- The driving loop with enough fuel on an acyclic store with unique ids:
everything ends annotated, the final batch query reports complete, the
committed ids were unannotated at the start, a caller committed in round j has
each known callee either annotated at the start or committed in an earlier
round, rows annotated at the end were annotated at the start or committed, and
the ids of the functions table are unchanged. -/
theorem mainLoop_run (oS : Nat → OracleOutcome) (oA : Nat → AnnResp) (maxB : Nat)
    (hmb : 1 ≤ maxB) :
    ∀ fuel s, idsNodup s → Acyclic s → unannotatedCount s ≤ fuel →
      (∀ f ∈ (mainLoop oS oA maxB fuel s).1.functions, f.summary ≠ "")
      ∧ getNextBatch (mainLoop oS oA maxB fuel s).1 maxB = .complete
      ∧ (∀ fid ∈ (mainLoop oS oA maxB fuel s).2.flatten, annotatedB s fid = false)
      ∧ (∀ e ∈ s.call_edges, isKnown s e.1 = true → isKnown s e.2 = true →
          ∀ j, e.1 ∈ (mainLoop oS oA maxB fuel s).2.getD j [] →
            annotatedB s e.2 = true
              ∨ ∃ i, i < j ∧ e.2 ∈ (mainLoop oS oA maxB fuel s).2.getD i [])
      ∧ (∀ fid, annotatedB (mainLoop oS oA maxB fuel s).1 fid = true →
          annotatedB s fid = true ∨ fid ∈ (mainLoop oS oA maxB fuel s).2.flatten)
      ∧ (mainLoop oS oA maxB fuel s).1.functions.map (fun f => f.function_id)
          = s.functions.map (fun f => f.function_id) := by
  intro fuel
  induction fuel with
  | zero =>
    intro s hn ha hcount
    have hc0 : unannotatedCount s = 0 := Nat.le_zero.mp hcount
    have hall := count_zero_all_annotated s hc0
    refine ⟨hall, getNextBatch_complete_of_annotated s maxB hall, ?_, ?_, ?_, rfl⟩
    · intro fid hfid
      cases hfid
    · intro e he h1 h2 j hj
      cases hj
    · intro fid hfid
      exact Or.inl hfid
  | succ fuel ih =>
    intro s hn ha hcount
    by_cases hc : unannotatedCount s = 0
    · have hall := count_zero_all_annotated s hc
      have hstop : mainLoop oS oA maxB (fuel + 1) s = (s, []) := by
        rw [mainLoop, getNextBatch_complete_of_annotated s maxB hall]
      rw [hstop]
      refine ⟨hall, getNextBatch_complete_of_annotated s maxB hall, ?_, ?_, ?_, rfl⟩
      · intro fid hfid
        cases hfid
      · intro e he h1 h2 j hj
        cases hj
      · intro fid hfid
        exact Or.inl hfid
    · have hex := count_pos_exists_unannotated s hc
      have hready := exists_ready_of_acyclic s hn ha hex
      have hok := getNextBatch_ok_of_ready s maxB hmb hready
      have hb1 : ∀ f ∈ (s.functions.filter (fun f => readyRow s f)).take maxB,
          f ∈ s.functions ∧ readyRow s f = true := by
        intro f hf
        have hmem := List.mem_of_mem_take hf
        exact ⟨(List.mem_filter.mp hmem).1, (List.mem_filter.mp hmem).2⟩
      have hbne : (s.functions.filter (fun f => readyRow s f)).take maxB ≠ [] := by
        obtain ⟨f, hf, hr⟩ := hready
        exact take_ne_nil_of_pos _ maxB
          (List.ne_nil_of_mem (List.mem_filter.mpr ⟨hf, hr⟩)) hmb
      obtain ⟨hn2, hedges2, hknown2, hlt2, hmono2, hback2, hfresh2⟩ :=
        mainStep_facts s hn oS oA ((s.functions.filter (fun f => readyRow s f)).take maxB)
          (saveResultsToDb s ((processBatch s oS oA
            ((s.functions.filter (fun f => readyRow s f)).take maxB)).filter
              (fun r => r.status_ok)))
          hb1 hbne rfl
      have ha2 : Acyclic (saveResultsToDb s ((processBatch s oS oA
          ((s.functions.filter (fun f => readyRow s f)).take maxB)).filter
            (fun r => r.status_ok))) := acyclic_save s _ ha
      have hcount2 : unannotatedCount (saveResultsToDb s ((processBatch s oS oA
          ((s.functions.filter (fun f => readyRow s f)).take maxB)).filter
            (fun r => r.status_ok))) ≤ fuel := by omega
      obtain ⟨ihall, ihcomp, ihA, ihB, ihC, ihids⟩ := ih _ hn2 ha2 hcount2
      rcases hrec : mainLoop oS oA maxB fuel (saveResultsToDb s ((processBatch s oS oA
          ((s.functions.filter (fun f => readyRow s f)).take maxB)).filter
            (fun r => r.status_ok))) with ⟨sf, bs⟩
      have heq : mainLoop oS oA maxB (fuel + 1) s =
          (sf, ((s.functions.filter (fun f => readyRow s f)).take maxB).map
            (fun f => f.function_id) :: bs) := by
        rw [mainLoop, hok]
        show (match mainLoop oS oA maxB fuel (saveResultsToDb s ((processBatch s oS oA
            ((s.functions.filter (fun f => readyRow s f)).take maxB)).filter
              (fun r => r.status_ok))) with
          | (sf2, bs2) => (sf2, ((s.functions.filter (fun f => readyRow s f)).take maxB).map
              (fun f : FunctionRow => f.function_id) :: bs2)) = _
        rw [hrec]
      rw [hrec] at ihall ihcomp ihA ihB ihC ihids
      rw [heq]
      refine ⟨ihall, ihcomp, ?_, ?_, ?_, ?_⟩
      · -- committed ids were unannotated in s
        intro fid hfid
        rw [List.flatten_cons] at hfid
        rcases List.mem_append.mp hfid with hmem | hmem
        · exact hfresh2 fid hmem
        · have hfalse2 := ihA fid hmem
          cases hx : annotatedB s fid with
          | false => rfl
          | true =>
            exfalso
            rw [hmono2 fid hx] at hfalse2
            cases hfalse2
      · -- round ordering
        intro e he h1 h2 j hj
        cases j with
        | zero =>
          rw [List.getD_cons_zero] at hj
          rcases List.mem_map.mp hj with ⟨f, hf, hfid⟩
          exact Or.inl (ready_callee_annotated s f (hb1 f hf).2 e he hfid.symm h2)
        | succ j =>
          rw [List.getD_cons_succ] at hj
          have hB := ihB e (by rw [hedges2]; exact he)
            (by rw [hknown2]; exact h1) (by rw [hknown2]; exact h2) j hj
          rcases hB with hann | ⟨i, hi, hmem⟩
          · rcases hback2 e.2 hann with hann0 | hmemb
            · exact Or.inl hann0
            · refine Or.inr ⟨0, Nat.succ_pos j, ?_⟩
              rw [List.getD_cons_zero]
              exact hmemb
          · refine Or.inr ⟨i + 1, Nat.succ_lt_succ hi, ?_⟩
            rw [List.getD_cons_succ]
            exact hmem
      · -- final annotatedness traces back
        intro fid hfid
        rcases ihC fid hfid with hann2 | hmem
        · rcases hback2 fid hann2 with hann0 | hmemb
          · exact Or.inl hann0
          · refine Or.inr ?_
            rw [List.flatten_cons]
            exact List.mem_append.mpr (Or.inl hmemb)
        · refine Or.inr ?_
          rw [List.flatten_cons]
          exact List.mem_append.mpr (Or.inr hmem)
      · -- ids of the table unchanged
        rw [ihids]
        exact step_preserves_ids s _

/-- C1: on an acyclic call graph with unique ids and every function initially
unannotated, the driving loop of batch_summarize.main with an unbounded
function budget, any batch limit of at least one and fuel covering the table
terminates with every function annotated (the next batch query answers
complete), and for every call edge between known functions the callee is
committed in a strictly earlier batch than the caller. -/
theorem c1_acyclic_run (s : Store) (oS : Nat → OracleOutcome) (oA : Nat → AnnResp)
    (maxB fuel : Nat) (hn : idsNodup s) (h0 : ∀ f ∈ s.functions, f.summary = "")
    (ha : Acyclic s) (hmb : 1 ≤ maxB) (hfuel : s.functions.length ≤ fuel) :
    (∀ f ∈ (mainLoop oS oA maxB fuel s).1.functions, f.summary ≠ "")
    ∧ getNextBatch (mainLoop oS oA maxB fuel s).1 maxB = .complete
    ∧ (∀ e ∈ s.call_edges, isKnown s e.1 = true → isKnown s e.2 = true →
        ∃ i j, i < j ∧ e.2 ∈ (mainLoop oS oA maxB fuel s).2.getD i []
          ∧ e.1 ∈ (mainLoop oS oA maxB fuel s).2.getD j []) := by
  have hcount : unannotatedCount s ≤ fuel :=
    Nat.le_trans (unannotatedCount_le_length s) hfuel
  obtain ⟨hall, hcomp, hA, hB, hC, hids⟩ := mainLoop_run oS oA maxB hmb fuel s hn ha hcount
  refine ⟨hall, hcomp, ?_⟩
  intro e he h1 h2
  have hk1f : isKnown (mainLoop oS oA maxB fuel s).1 e.1 = true := by
    rw [isKnown_of_ids_eq _ s hids]
    exact h1
  have hannf : annotatedB (mainLoop oS oA maxB fuel s).1 e.1 = true := by
    rcases List.any_eq_true.mp hk1f with ⟨g, hg, hgid⟩
    rw [annotatedB]
    refine List.any_eq_true.mpr ⟨g, hg, ?_⟩
    rw [Bool.and_eq_true_iff]
    exact ⟨hgid, by simp [hall g hg]⟩
  rcases hC e.1 hannf with hann0 | hflat
  · rw [annotatedB_false_of_empty s h0 e.1] at hann0
    cases hann0
  · obtain ⟨j, hj⟩ := mem_flatten_exists_getD _ _ hflat
    rcases hB e he h1 h2 j hj with hann0 | ⟨i, hi, hmem⟩
    · rw [annotatedB_false_of_empty s h0 e.2] at hann0
      cases hann0
    · exact ⟨i, j, hi, hmem, hj⟩

/-- Witness for C1 at the spec example store (main calls helper), with the
oracle timing out so that the fallback placeholder is committed. -/
theorem c1_witness :
    idsNodup sPair ∧ (1 : Nat) ≤ 50 ∧ sPair.functions.length ≤ 2
    ∧ (∀ f ∈ sPair.functions, f.summary = "")
    ∧ getNextBatch (mainLoop (fun _ => .timeout) (fun _ => .malformed) 50 2 sPair).1 50
        = .complete :=
  ⟨by decide, by decide, by decide, by decide,
    (c1_acyclic_run sPair (fun _ => .timeout) (fun _ => .malformed) 50 2 (by decide)
      (by decide) ⟨fun n => if n = 1 then 1 else 0, by decide⟩ (by decide) (by decide)).2.1⟩

/-- Witness for the amended C2 at a store with one annotated function. -/
theorem c2_amended_witness :
    idsNodup sDone
    ∧ (∀ f ∈ sDone.functions, f.summary = "" ∨ pyStrip f.summary ≠ "")
    ∧ getNextBatch sDone 50 = .complete
    ∧ getNextTarget sDone = .complete :=
  ⟨by decide, by decide,
    ((c2_amended_mode_agreement sDone (by decide) (by decide)).2.1 (by decide)).1 50,
    ((c2_amended_mode_agreement sDone (by decide) (by decide)).2.1 (by decide)).2 (by decide)⟩

end SemIdx
